import Mathlib

/-!
Verification of the tailjlogs log-viewing engine against its design
specification.

The visible source (`src/tailjlogs/log_view.py`) is the UI-facing layer:
its pure helpers (`_copy_to_clipboard`, `_format_line_for_copy`), the
`LogView` event handlers (`on_scan_complete`, `action_toggle_tail`) and
the constant `MAX_DETAIL_LINE_LENGTH` are embedded directly from the
source below.  The ingestion core (line scanner, merged index, filter
engine) is declared by the spec but its module is not part of the
visible sources; those components are modelled from the spec and each
such definition is marked `Modelled from the spec:` in its doc comment.

Text is represented as lists of natural-number code points, and file
contents as lists of natural-number byte values, so that every
definition is executable and every concrete scenario can be checked by
evaluation.
-/

/-! ## LogView tail state (`log_view.py`, class `LogView`) -/

/-- The tail-related reactive state of a `LogView` session:
`tail : reactive[bool]` and `can_tail : reactive[bool]`
(log_view.py lines 464-465). -/
structure LogViewState where
  tail : Bool
  can_tail : Bool
deriving Repr, DecidableEq

/-- Embedding of `LogView.on_scan_complete` (log_view.py lines 635-645)
restricted to its effect on the tail state: the handler executes
`self.tail = True` with no test of `can_tail`.  The widget-tree side
effects (removing the progress bar, reposting `PointerMoved`,
remounting footer keys) do not touch `tail`/`can_tail`. -/
def on_scan_complete (s : LogViewState) : LogViewState :=
  { s with tail := true }

/-- Result of a user action: the new state plus any notifications the
handler emitted via `self.notify`. -/
structure ToggleTailOut where
  state : LogViewState
  notifications : List String
deriving Repr, DecidableEq

/-- Embedding of `LogView.action_toggle_tail` (log_view.py lines
652-656): if `can_tail` is false it notifies the rejection message and
leaves the state alone, otherwise it flips `tail`. -/
def action_toggle_tail (s : LogViewState) : ToggleTailOut :=
  if s.can_tail then
    { state := { s with tail := !s.tail }, notifications := [] }
  else
    { state := s, notifications := ["Can\x27t tail this file"] }

/-! ## Clipboard helpers (`log_view.py`, module level) -/

/-- Outcome of invoking an external Python facility (a `subprocess.run`
call or the Tkinter fallback): either it returns normally or it raises
an exception whose `str()` is recorded. -/
inductive PyOutcome where
  | ok : PyOutcome
  | exc (msg : String) : PyOutcome
deriving Repr, DecidableEq

/-- The environment `_copy_to_clipboard` probes: `sys.platform`, the
`shutil.which` lookups, and the outcome of whichever external call is
selected (`subprocess.run` for the platform branches, Tkinter for the
final fallback). -/
structure ClipboardEnv where
  platform : String
  has_wl_copy : Bool
  has_xclip : Bool
  has_xsel : Bool
  run_outcome : PyOutcome
  tk_outcome : PyOutcome
deriving Repr, DecidableEq

/-- Embedding of `_copy_to_clipboard` (log_view.py lines 20-66).  The
whole body sits inside `try:`; any exception from a `subprocess.run`
branch is caught by the outer handler, which returns
`(False, str(exc))`, while a Tkinter failure is caught by the inner
handler which returns `(False, "No clipboard utility found: ...")`.
Every successful branch returns `(True, None)`. -/
def copy_to_clipboard (env : ClipboardEnv) (text : List Nat) : Bool × Option String :=
  if env.platform = "darwin" then
    match env.run_outcome with
    | .ok => (true, none)
    | .exc m => (false, some m)
  else if env.platform.startsWith "win" then
    match env.run_outcome with
    | .ok => (true, none)
    | .exc m => (false, some m)
  else if env.has_wl_copy then
    match env.run_outcome with
    | .ok => (true, none)
    | .exc m => (false, some m)
  else if env.has_xclip then
    match env.run_outcome with
    | .ok => (true, none)
    | .exc m => (false, some m)
  else if env.has_xsel then
    match env.run_outcome with
    | .ok => (true, none)
    | .exc m => (false, some m)
  else
    match env.tk_outcome with
    | .ok => (true, none)
    | .exc m => (false, some ("No clipboard utility found: " ++ m))

/-! ## Detail-panel text abbreviation -/

/-- Embedding of the constant `MAX_DETAIL_LINE_LENGTH = 100_000`
(log_view.py line 104), passed by `LogView.update_panel` as the
`max_line_length` argument of `get_text`. -/
def MAX_DETAIL_LINE_LENGTH : Nat := 100000

/-- Text returned by `get_text` in abbreviate mode together with its
truncation flag. -/
structure AbbreviatedText where
  text : List Nat
  truncated : Bool
deriving Repr, DecidableEq

/-- Modelled from the spec: the body of `LogLines.get_text` lives in
`tailjlogs.log_lines`, which is not among the visible sources.  Per the
spec, abbreviate mode "caps returned text to a maximum configured
length" and an over-long line is "abbreviated at `max_line_length`,
reported as a truncation flag on the returned text rather than an
error". -/
def get_text_abbreviate (line : List Nat) (max_line_length : Nat) : AbbreviatedText :=
  if max_line_length < line.length then
    { text := line.take max_line_length, truncated := true }
  else
    { text := line, truncated := false }

/-! ## Theorems for claims C1, C2, C8, C10 -/

/-- C1 counterexample: the claim states that for a session constructed
with `can_tail = false`, handling `ScanComplete` never sets the tail
flag to true.  On the code it does: `on_scan_complete` executes
`self.tail = True` unconditionally, so the session with
`tail = false, can_tail = false` ends with `tail = true`. -/
theorem on_scan_complete_can_tail_false_counterexample :
    (on_scan_complete { tail := false, can_tail := false }).tail = true := rfl

/-- C1 (amended): when the `ScanComplete` event is handled, the session
sets the tail flag to true unconditionally — regardless of the
`can_tail` capability flag, which itself is left unchanged. -/
theorem on_scan_complete_sets_tail_unconditionally (s : LogViewState) :
    (on_scan_complete s).tail = true ∧ (on_scan_complete s).can_tail = s.can_tail := by
  constructor <;> rfl

/-- C2: a `toggle_tail` request with `can_tail = false` leaves the tail
flag (and the whole state) unchanged and emits exactly the user-facing
rejection message "Can't tail this file"; with `can_tail = true` it
flips the tail flag, preserves `can_tail`, and emits no notification. -/
theorem action_toggle_tail_spec (s : LogViewState) :
    (action_toggle_tail s).state.tail = (if s.can_tail then !s.tail else s.tail) ∧
    (action_toggle_tail s).state.can_tail = s.can_tail ∧
    (action_toggle_tail s).notifications =
      (if s.can_tail then [] else ["Can\x27t tail this file"]) := by
  unfold action_toggle_tail
  by_cases h : s.can_tail <;> simp [h]

/-- C8: in abbreviate mode the returned text is the input capped at
`max_line_length` (so its length never exceeds the cap), the truncation
flag is set exactly when the line is longer than the cap, and the
default cap constant is 100,000. -/
theorem get_text_abbreviate_spec (line : List Nat) (m : Nat) :
    (get_text_abbreviate line m).text = line.take m ∧
    (get_text_abbreviate line m).text.length ≤ m ∧
    (get_text_abbreviate line m).truncated = decide (m < line.length) ∧
    MAX_DETAIL_LINE_LENGTH = 100000 := by
  unfold get_text_abbreviate
  by_cases h : m < line.length
  · simp [h, MAX_DETAIL_LINE_LENGTH]
  · have hle : line.length ≤ m := Nat.le_of_not_lt h
    simp [h, MAX_DETAIL_LINE_LENGTH, List.take_of_length_le hle, hle]

/-- C10: `_copy_to_clipboard` never propagates an exception (it is a
total function of its environment) and its result is always either
`(True, None)` or `(False, m)` with `m` a present error message; the
shapes `(True, some m)` and `(False, None)` are impossible. -/
theorem copy_to_clipboard_result_shape (env : ClipboardEnv) (text : List Nat) :
    copy_to_clipboard env text = (true, none) ∨
    ∃ m, copy_to_clipboard env text = (false, some m) := by
  unfold copy_to_clipboard
  by_cases h1 : env.platform = "darwin" <;>
    by_cases h2 : env.platform.startsWith "win" <;>
    by_cases h3 : env.has_wl_copy <;>
    by_cases h4 : env.has_xclip <;>
    by_cases h5 : env.has_xsel <;>
    simp [h1, h2, h3, h4, h5] <;>
    first
    | (cases env.run_outcome with
       | ok => exact Or.inl rfl
       | exc m => exact Or.inr ⟨m, rfl⟩)
    | (cases env.tk_outcome with
       | ok => exact Or.inl rfl
       | exc m => exact Or.inr ⟨"No clipboard utility found: " ++ m, rfl⟩)

/-! ## LineScanner (modelled from the spec) -/

/-- Modelled from the spec: the scanning loop of `LineScanner`, whose
module is not among the visible sources.  `start` is the absolute byte
offset of the current line, `len` the number of bytes accumulated for
it so far.  A line boundary is any occurrence of the newline byte (10);
each record is `(byte_offset, byte_length)` with the length excluding
the terminator; the final unterminated fragment is indexed once the
scan is declared final, and an empty trailing fragment produces no
record. -/
def scanAux (start len : Nat) : List Nat → List (Nat × Nat)
  | [] => if len = 0 then [] else [(start, len)]
  | b :: rest =>
    if b = 10 then (start, len) :: scanAux (start + len + 1) 0 rest
    else scanAux start (len + 1) rest

/-- Modelled from the spec: the full scan of a file's byte content into
its ordered sequence of line records. -/
def scanRecords (content : List Nat) : List (Nat × Nat) := scanAux 0 0 content

/-- Modelled from the spec: `get_text` on a single line record seeks the
owning file to `byte_offset` and reads `byte_length` bytes (the decode
step is the identity at the byte level, permissive replacement
excepted). -/
def get_text (content : List Nat) (r : Nat × Nat) : List Nat :=
  (content.drop r.1).take r.2

/-- A line's text with its newline terminator restored: a record is
terminated exactly when a byte (necessarily the newline) follows it. -/
def restoreLine (content : List Nat) (r : Nat × Nat) : List Nat :=
  get_text content r ++ (if r.1 + r.2 < content.length then [10] else [])

/-- A block of `lines.length` newline-terminated lines, as appended to
a watched file. -/
def terminatedBlock (lines : List (List Nat)) : List Nat :=
  (lines.map (fun l => l ++ [10])).flatten

theorem take_snoc_of_drop (l : List Nat) (start len b : Nat) (t : List Nat)
    (h : l.drop (start + len) = b :: t) :
    (l.drop start).take (len + 1) = (l.drop start).take len ++ [b] := by
  rw [List.take_add, List.drop_drop, h]
  rfl

theorem scanAux_reconstruct (rest : List Nat) : ∀ (start len : Nat) (content : List Nat),
    content.length = start + len + rest.length →
    content.drop (start + len) = rest →
    ((scanAux start len rest).map (restoreLine content)).flatten
      = (content.drop start).take len ++ rest := by
  induction rest with
  | nil =>
    intro start len content hlen hdrop
    simp only [List.length_nil] at hlen
    by_cases h : len = 0
    · simp [scanAux, h]
    · have hnot : ¬ (start + len < content.length) := by omega
      simp [scanAux, h, restoreLine, get_text, hnot]
  | cons b rest ih =>
    intro start len content hlen hdrop
    simp only [List.length_cons] at hlen
    have hdrop1 : content.drop (start + len + 1) = rest := by
      have h1 : content.drop (start + len + 1) = (content.drop (start + len)).drop 1 := by
        rw [List.drop_drop]
      rw [h1, hdrop]
      rfl
    by_cases h : b = 10
    · subst h
      have hterm : start + len < content.length := by omega
      have ihres := ih (start + len + 1) 0 content (by simp; omega)
        (by simpa using hdrop1)
      simp only [List.take_zero, List.nil_append] at ihres
      simp only [scanAux, if_pos rfl, List.map_cons, List.flatten_cons, ihres]
      simp [restoreLine, get_text, hterm]
      exact ihres
    · have ihres := ih start (len + 1) content (by omega)
        (by rw [show start + (len + 1) = start + len + 1 by omega]; exact hdrop1)
      simp only [scanAux, if_neg h, ihres]
      rw [take_snoc_of_drop content start len b rest hdrop]
      simp

/-- C5: concatenating `get_text` over all indexed lines, with each
line's newline terminator restored, reconstructs the original file
content exactly.  (The permissive decoder is the identity at the level
of byte values, so the replacement caveat does not arise in this
model.) -/
theorem get_text_roundtrip (content : List Nat) :
    ((scanRecords content).map (restoreLine content)).flatten = content := by
  have h := scanAux_reconstruct content 0 0 content (by simp) (by simp)
  simpa [scanRecords] using h

theorem scanAux_cons_newline (start len : Nat) (rest : List Nat) :
    scanAux start len (10 :: rest) = (start, len) :: scanAux (start + len + 1) 0 rest := rfl

theorem scanAux_cons_other (start len b : Nat) (rest : List Nat) (h : b ≠ 10) :
    scanAux start len (b :: rest) = scanAux start (len + 1) rest := by
  simp [scanAux, h]

theorem scanAux_split_at_newline (xs : List Nat) : ∀ (start len : Nat) (ys : List Nat),
    scanAux start len (xs ++ 10 :: ys)
      = scanAux start len (xs ++ [10]) ++ scanAux (start + len + xs.length + 1) 0 ys := by
  induction xs with
  | nil =>
    intro start len ys
    simp [scanAux_cons_newline, scanAux]
  | cons b xs ih =>
    intro start len ys
    by_cases h : b = 10
    · subst h
      rw [List.cons_append, List.cons_append, scanAux_cons_newline, scanAux_cons_newline,
        ih (start + len + 1) 0 ys]
      simp only [List.length_cons, List.cons_append]
      rw [show start + len + 1 + 0 + xs.length + 1 = start + len + (xs.length + 1) + 1 by omega]
    · rw [List.cons_append, List.cons_append, scanAux_cons_other start len b _ h,
        scanAux_cons_other start len b _ h, ih start (len + 1) ys]
      simp only [List.length_cons]
      rw [show start + (len + 1) + xs.length + 1 = start + len + (xs.length + 1) + 1 by omega]

theorem scanAux_no_newline (l : List Nat) : ∀ (start len : Nat) (ys : List Nat),
    (∀ c ∈ l, c ≠ 10) →
    scanAux start len (l ++ ys) = scanAux start (len + l.length) ys := by
  induction l with
  | nil => intro start len ys _; simp
  | cons b l ih =>
    intro start len ys hnl
    have hb : b ≠ 10 := hnl b (by simp)
    rw [List.cons_append, scanAux_cons_other start len b _ hb,
      ih start (len + 1) ys (fun c hc => hnl c (by simp [hc]))]
    simp only [List.length_cons]
    rw [show len + 1 + l.length = len + (l.length + 1) by omega]

theorem scanAux_terminatedBlock (lines : List (List Nat)) : ∀ (off : Nat),
    (∀ l ∈ lines, ∀ c ∈ l, c ≠ 10) →
    (scanAux off 0 (terminatedBlock lines)).length = lines.length := by
  induction lines with
  | nil => intro off _; simp [terminatedBlock, scanAux]
  | cons l ls ih =>
    intro off hnl
    have hblock : terminatedBlock (l :: ls) = l ++ 10 :: terminatedBlock ls := by
      simp [terminatedBlock]
    rw [hblock, scanAux_no_newline l off 0 (10 :: terminatedBlock ls)
      (hnl l (by simp)), scanAux_cons_newline]
    simp only [List.length_cons]
    rw [ih (off + (0 + l.length) + 1) (fun x hx => hnl x (by simp [hx]))]

/-- The record list of a fully scanned file extends by exactly the new
records when terminated content is appended. -/
theorem scanRecords_append (content : List Nat) (extra : List Nat)
    (hterm : content = [] ∨ ∃ pre, content = pre ++ [10]) :
    scanRecords (content ++ extra)
      = scanRecords content ++ scanAux content.length 0 extra := by
  rcases hterm with h | ⟨pre, h⟩
  · subst h; simp [scanRecords, scanAux]
  · subst h
    unfold scanRecords
    rw [List.append_assoc, List.singleton_append, scanAux_split_at_newline pre 0 0 extra]
    simp

/-- C4: appending `K = lines.length` newline-terminated, newline-free
lines to a watched file whose existing content is fully terminated
grows the line-record index by exactly `K`, and every pre-existing
record keeps its global line number (the old index is preserved
entry-for-entry at the same positions). -/
theorem scan_append_lines (content : List Nat) (lines : List (List Nat))
    (hterm : content = [] ∨ ∃ pre, content = pre ++ [10])
    (hnl : ∀ l ∈ lines, ∀ c ∈ l, c ≠ 10) :
    (scanRecords (content ++ terminatedBlock lines)).length
      = (scanRecords content).length + lines.length ∧
    ∀ i, i < (scanRecords content).length →
      (scanRecords (content ++ terminatedBlock lines))[i]?
        = (scanRecords content)[i]? := by
  have happ := scanRecords_append content (terminatedBlock lines) hterm
  constructor
  · rw [happ, List.length_append, scanAux_terminatedBlock lines content.length hnl]
  · intro i hi
    rw [happ, List.getElem?_append, if_pos hi]

/-- Witness for C4 at a concrete input: the file "hi\n" grows by the
two lines "a\n" and "bc\n"; the index length grows from 1 to 3 and the
first record is unchanged. -/
theorem scan_append_lines_witness :
    (scanRecords ([104, 105, 10] ++ terminatedBlock [[97], [98, 99]])).length
      = (scanRecords [104, 105, 10]).length + 2 ∧
    (scanRecords ([104, 105, 10] ++ terminatedBlock [[97], [98, 99]]))[0]?
      = (scanRecords [104, 105, 10])[0]? := by
  have h := scan_append_lines [104, 105, 10] [[97], [98, 99]]
    (Or.inr ⟨[104, 105], rfl⟩) (by decide)
  exact ⟨h.1, h.2 0 (by decide)⟩

/-! ## MergedIndex (modelled from the spec) -/

/-- One entry of the merged index: which file (in declaration order),
which line within that file (in-file order), and the line's extracted
timestamp. -/
structure LineEntry where
  fileIdx : Nat
  localIdx : Nat
  timestamp : Nat
deriving Repr, DecidableEq

/-- The merge key order of the spec: lexicographic on
`(timestamp, file-declaration-order, in-file-order)`. -/
def entryLe (a b : LineEntry) : Prop :=
  a.timestamp < b.timestamp ∨
    (a.timestamp = b.timestamp ∧
      (a.fileIdx < b.fileIdx ∨
        (a.fileIdx = b.fileIdx ∧ a.localIdx ≤ b.localIdx)))

instance : DecidableRel entryLe := fun a b => by
  unfold entryLe; infer_instance

instance : IsTotal LineEntry entryLe :=
  ⟨fun a b => by unfold entryLe; omega⟩

instance : IsTrans LineEntry entryLe :=
  ⟨fun a b c hab hbc => by unfold entryLe at *; omega⟩

instance : IsAntisymm LineEntry entryLe :=
  ⟨fun a b hab hba => by
    unfold entryLe at *
    have h1 : a.timestamp = b.timestamp := by omega
    have h2 : a.fileIdx = b.fileIdx := by omega
    have h3 : a.localIdx = b.localIdx := by omega
    cases a; cases b; simp_all⟩

/-- The entries contributed by one file, given the timestamps of its
lines in in-file order. -/
def fileEntries (fi : Nat) (ts : List Nat) : List LineEntry :=
  ts.enum.map (fun p => ⟨fi, p.1, p.2⟩)

/-- All entries of a session's files in declaration order. -/
def allEntries (files : List (List Nat)) : List LineEntry :=
  (files.enum.map (fun p => fileEntries p.1 p.2)).flatten

/-- Modelled from the spec: the `MergedIndex` — the globally ordered
sequence of line references, "sorted by
(timestamp_or_arrival_order, source_file_id, local_line_no)".  The
module holding the implementation is not among the visible sources, so
the ordered sequence is produced here by a stable sort under the key
order `entryLe`. -/
def mergedIndex (files : List (List Nat)) : List LineEntry :=
  (allEntries files).insertionSort entryLe

/-- Modelled from the spec: `index_to_span(global_line_no)` resolves a
global line number to the owning file and local line via the merged
order. -/
def index_to_span (files : List (List Nat)) (g : Nat) : Option LineEntry :=
  (mergedIndex files)[g]?

/-- C3 counterexample: in the claim's own scenario (file A at
timestamps 1,3,5; file B at 2,4) the merged order is A1,B1,A2,B2,A3
over global lines 0..4, so `index_to_span(2)` returns A's second line
(timestamp 3), not B's first line (timestamp 2) as the claim states. -/
theorem index_to_span_scenario_counterexample :
    index_to_span [[1, 3, 5], [2, 4]] 2
        = some { fileIdx := 0, localIdx := 1, timestamp := 3 } ∧
    index_to_span [[1, 3, 5], [2, 4]] 2
        ≠ some { fileIdx := 1, localIdx := 0, timestamp := 2 } := by
  constructor
  · decide
  · decide

/-- C3 (amended): the global order presented by `index_to_span` is the
unique permutation of the files' entries that is sorted by the key
`(timestamp, file-declaration-order, in-file-order)` — hence it equals
the output of a stable merge-sort of the per-file sequences under that
key; in the concrete scenario (A at t=1,3,5 and B at t=2,4) the merged
order over global lines 0..4 is A1,B1,A2,B2,A3, and it is
`index_to_span(1)` that returns B's first line. -/
theorem index_to_span_merge_order (files : List (List Nat)) (L : List LineEntry)
    (hperm : L.Perm (allEntries files)) (hsorted : L.Sorted entryLe) :
    L = mergedIndex files ∧
    (mergedIndex files).Perm (allEntries files) ∧
    (mergedIndex files).Sorted entryLe ∧
    (∀ g, index_to_span files g = (mergedIndex files)[g]?) ∧
    mergedIndex [[1, 3, 5], [2, 4]] =
      [{ fileIdx := 0, localIdx := 0, timestamp := 1 },
       { fileIdx := 1, localIdx := 0, timestamp := 2 },
       { fileIdx := 0, localIdx := 1, timestamp := 3 },
       { fileIdx := 1, localIdx := 1, timestamp := 4 },
       { fileIdx := 0, localIdx := 2, timestamp := 5 }] ∧
    index_to_span [[1, 3, 5], [2, 4]] 1
      = some { fileIdx := 1, localIdx := 0, timestamp := 2 } := by
  have hmergePerm : (mergedIndex files).Perm (allEntries files) :=
    List.perm_insertionSort entryLe (allEntries files)
  have hmergeSorted : (mergedIndex files).Sorted entryLe :=
    List.sorted_insertionSort entryLe (allEntries files)
  refine ⟨?_, hmergePerm, hmergeSorted, fun g => rfl, by decide, by decide⟩
  exact List.eq_of_perm_of_sorted (hperm.trans hmergePerm.symm) hsorted hmergeSorted

/-- Witness for C3 (amended) at the concrete scenario: the explicitly
sorted permutation of the two files' entries is the merged index. -/
theorem index_to_span_merge_order_witness :
    [({ fileIdx := 0, localIdx := 0, timestamp := 1 } : LineEntry),
     { fileIdx := 1, localIdx := 0, timestamp := 2 },
     { fileIdx := 0, localIdx := 1, timestamp := 3 },
     { fileIdx := 1, localIdx := 1, timestamp := 4 },
     { fileIdx := 0, localIdx := 2, timestamp := 5 }]
      = mergedIndex [[1, 3, 5], [2, 4]] ∧
    index_to_span [[1, 3, 5], [2, 4]] 1
      = some { fileIdx := 1, localIdx := 0, timestamp := 2 } := by
  have h := index_to_span_merge_order [[1, 3, 5], [2, 4]]
    [{ fileIdx := 0, localIdx := 0, timestamp := 1 },
     { fileIdx := 1, localIdx := 0, timestamp := 2 },
     { fileIdx := 0, localIdx := 1, timestamp := 3 },
     { fileIdx := 1, localIdx := 1, timestamp := 4 },
     { fileIdx := 0, localIdx := 2, timestamp := 5 }]
    (by decide) (by decide)
  exact ⟨h.1, h.2.2.2.2.2⟩

/-! ## FilterEngine: find-cursor advance (modelled from the spec) -/

/-- Modelled from the spec: the sequence of global line numbers that
`advance_search` examines, starting just after (or just before) the
cursor and wrapping around the full index bounds exactly once; its
length is the number of global lines, so the scan is single-pass. -/
def searchCandidates (n cursor : Nat) (forward : Bool) : List Nat :=
  if forward then (List.range n).rotate (cursor + 1)
  else ((List.range n).rotate cursor).reverse

/-- Modelled from the spec: `advance_search(direction)` over an index
of `n` global lines with the given match predicate — the first examined
line that matches, if any. -/
def advance_search (n cursor : Nat) (matchesLine : Nat → Bool) (forward : Bool) :
    Option Nat :=
  (searchCandidates n cursor forward).find? matchesLine

/-- The cursor update and not-found signal derived from
`advance_search`: on a hit the cursor moves to the hit and the flag is
true; on a miss the cursor is unchanged and the flag signals "not
found". -/
def advance_search_result (n cursor : Nat) (matchesLine : Nat → Bool) (forward : Bool) :
    Nat × Bool :=
  match advance_search n cursor matchesLine forward with
  | some j => (j, true)
  | none => (cursor, false)

theorem mem_searchCandidates (n cursor : Nat) (forward : Bool) (i : Nat) :
    i ∈ searchCandidates n cursor forward ↔ i < n := by
  unfold searchCandidates
  by_cases h : forward <;> simp [h, List.mem_rotate, List.mem_range]

/-- C6: the search examines exactly one full wraparound (`n`
candidates); whenever some global line below `n` matches, the search
lands on a matching line within bounds and reports a hit; with zero
matching lines the cursor is left unchanged and the not-found signal is
produced.  (`advance_search` is a total function, so termination is by
construction.) -/
theorem advance_search_spec (n cursor : Nat) (m : Nat → Bool) (forward : Bool) :
    (searchCandidates n cursor forward).length = n ∧
    ((∃ i, i < n ∧ m i = true) →
      ((advance_search_result n cursor m forward).2 = true ∧
       m (advance_search_result n cursor m forward).1 = true ∧
       (advance_search_result n cursor m forward).1 < n)) ∧
    ((∀ i, i < n → m i = false) →
      advance_search_result n cursor m forward = (cursor, false)) := by
  refine ⟨?_, ?_, ?_⟩
  · unfold searchCandidates
    by_cases h : forward <;> simp [h, List.length_rotate]
  · rintro ⟨i, hi, hmi⟩
    have hmem : i ∈ searchCandidates n cursor forward :=
      (mem_searchCandidates n cursor forward i).mpr hi
    have hsome : (advance_search n cursor m forward).isSome := by
      rw [advance_search, List.find?_isSome]
      exact ⟨i, hmem, hmi⟩
    obtain ⟨j, hj⟩ := Option.isSome_iff_exists.mp hsome
    have hpj : m j = true := List.find?_some hj
    have hjmem : j ∈ searchCandidates n cursor forward :=
      List.mem_of_find?_eq_some hj
    have hjn : j < n := (mem_searchCandidates n cursor forward j).mp hjmem
    simp [advance_search_result, hj, hpj, hjn]
  · intro hall
    have hnone : advance_search n cursor m forward = none := by
      rw [advance_search, List.find?_eq_none]
      intro x hx
      have hxn : x < n := (mem_searchCandidates n cursor forward x).mp hx
      simp [hall x hxn]
    simp [advance_search_result, hnone]

/-- Witness for C6 at concrete inputs: over 5 lines with the cursor at
2, searching forward for line 4 finds it, and searching for an absent
match leaves the cursor at 2 with the not-found signal. -/
theorem advance_search_spec_witness :
    ((advance_search_result 5 2 (fun i => i == 4) true).2 = true ∧
     (fun i => i == 4) (advance_search_result 5 2 (fun i => i == 4) true).1 = true ∧
     (advance_search_result 5 2 (fun i => i == 4) true).1 < 5) ∧
    advance_search_result 5 2 (fun i => i == 9) true = (2, false) :=
  ⟨(advance_search_spec 5 2 (fun i => i == 4) true).2.1 ⟨4, by decide, by decide⟩,
   (advance_search_spec 5 2 (fun i => i == 9) true).2.2 (by decide)⟩

/-! ## FilterEngine: filter state and invalid-pattern rejection
(modelled from the spec) -/

/-- The spec's `FilterState`: `{pattern, is_regex, case_sensitive}`. -/
structure FilterState where
  pattern : List Nat
  is_regex : Bool
  case_sensitive : Bool
deriving Repr, DecidableEq

/-- ASCII lowercasing of one code point, the case-insensitive
comparison's normalisation. -/
def toLowerCp (c : Nat) : Nat := if 65 ≤ c ∧ c ≤ 90 then c + 32 else c

/-- Whether `needle` occurs at the very start of `hay`. -/
def prefixMatches : List Nat → List Nat → Bool
  | [], _ => true
  | _ :: _, [] => false
  | a :: as, b :: bs => a == b && prefixMatches as bs

/-- Whether `needle` occurs as a contiguous substring of `hay`. -/
def containsSub (needle : List Nat) : List Nat → Bool
  | [] => prefixMatches needle []
  | b :: bs => prefixMatches needle (b :: bs) || containsSub needle bs

/-- Modelled from the spec: whether a line matches the active filter —
a plain substring test (optionally case-insensitive) or, for regex
filters, the match function of the compiled pattern, taken as a
parameter since the regex engine is an external collaborator. -/
def lineMatches (regexMatch : List Nat → List Nat → Bool) (st : FilterState)
    (line : List Nat) : Bool :=
  if st.is_regex then regexMatch st.pattern line
  else if st.case_sensitive then containsSub st.pattern line
  else containsSub (st.pattern.map toLowerCp) (line.map toLowerCp)

/-- The derived matched-line count of a filter state over the current
merged index's lines. -/
def matchedCount (regexMatch : List Nat → List Nat → Bool) (st : FilterState)
    (lines : List (List Nat)) : Nat :=
  (lines.filter (lineMatches regexMatch st)).length

/-- Modelled from the spec: submitting a new filter; a regex pattern is
first validated (`validRegex` stands for the compile step); an invalid
regular expression is rejected with a user-facing error and the
previous filter state is retained, otherwise the new state is
installed. -/
def set_filter (validRegex : List Nat → Bool) (st : FilterState)
    (pattern : List Nat) (is_regex case_sensitive : Bool) :
    FilterState × Option String :=
  if is_regex && !(validRegex pattern) then
    (st, some "Invalid regular expression")
  else
    ({ pattern := pattern, is_regex := is_regex, case_sensitive := case_sensitive },
     none)

/-- C7: submitting an invalid regular expression as the filter is
rejected with a user-facing error and the previously active filter
state — pattern, flags, and hence the derived matched-line count over
any line set and any regex engine — is fully retained. -/
theorem set_filter_invalid_regex (validRegex : List Nat → Bool)
    (regexMatch : List Nat → List Nat → Bool) (st : FilterState)
    (p : List Nat) (cs : Bool) (lines : List (List Nat))
    (hinvalid : validRegex p = false) :
    (set_filter validRegex st p true cs).1 = st ∧
    (set_filter validRegex st p true cs).2 = some "Invalid regular expression" ∧
    matchedCount regexMatch (set_filter validRegex st p true cs).1 lines
      = matchedCount regexMatch st lines := by
  unfold set_filter
  simp [hinvalid]

/-- Witness for C7 at concrete inputs: with a regex validator that
rejects the pattern "[", the previously active case-sensitive substring
filter "a" over the lines "a", "b" keeps its state and its matched-line
count. -/
theorem set_filter_invalid_regex_witness :
    (set_filter (fun _ => false) { pattern := [97], is_regex := false, case_sensitive := true }
        [91] true false).1
      = { pattern := [97], is_regex := false, case_sensitive := true } ∧
    (set_filter (fun _ => false) { pattern := [97], is_regex := false, case_sensitive := true }
        [91] true false).2 = some "Invalid regular expression" ∧
    matchedCount (fun _ _ => false)
        (set_filter (fun _ => false)
          { pattern := [97], is_regex := false, case_sensitive := true }
          [91] true false).1 [[97], [98]]
      = matchedCount (fun _ _ => false)
          { pattern := [97], is_regex := false, case_sensitive := true } [[97], [98]] :=
  set_filter_invalid_regex (fun _ => false) (fun _ _ => false)
    { pattern := [97], is_regex := false, case_sensitive := true }
    [91] false [[97], [98]] rfl

/-! ## JSON values, pretty-printing and parsing (`_format_line_for_copy`)

The helper `_format_line_for_copy` (log_view.py lines 69-84) delegates
to Python's `json` module: `json.loads(line)` and
`json.dumps(data, indent=2, ensure_ascii=False)`.  The `json` module is
external library code, embedded here for the fragment it is exercised
on: values are null, booleans, integers, strings, arrays and objects
(floating-point numbers are outside the model), text is a list of
code points, and objects are association lists in insertion order. -/

/-- A JSON value of the modelled fragment. -/
inductive JVal where
  | null : JVal
  | bool (b : Bool) : JVal
  | num (n : Int) : JVal
  | str (s : List Nat) : JVal
  | arr (items : List JVal) : JVal
  | obj (members : List (List Nat × JVal)) : JVal
deriving Repr

/-- Lowercase hexadecimal digit for a value below 16, as in Python's
`'\u%04x'` escapes. -/
def hexDigitChar (d : Nat) : Nat := if d < 10 then 48 + d else 87 + d

/-- The escape of one string character, as produced by Python's JSON
encoder with `ensure_ascii=False`: backslash, quote and the short
control escapes get two-character forms, all other control characters
get `\u00XX`, and everything else is emitted verbatim. -/
def escapeChar (c : Nat) : List Nat :=
  if c = 92 then [92, 92]
  else if c = 34 then [92, 34]
  else if c = 8 then [92, 98]
  else if c = 12 then [92, 102]
  else if c = 10 then [92, 110]
  else if c = 13 then [92, 114]
  else if c = 9 then [92, 116]
  else if c < 32 then [92, 117, 48, 48, hexDigitChar (c / 16), hexDigitChar (c % 16)]
  else [c]

/-- The escaped body of a JSON string literal. -/
def escString : List Nat → List Nat
  | [] => []
  | c :: cs => escapeChar c ++ escString cs

/-- A complete JSON string literal: quote, escaped body, quote. -/
def dumpStr (s : List Nat) : List Nat := 34 :: escString s ++ [34]

/-- Decimal digit characters of a natural number (most significant
first), with 0 printed as "0". -/
def natDigits (n : Nat) : List Nat :=
  if n = 0 then [48] else ((Nat.digits 10 n).map (fun d => d + 48)).reverse

/-- Decimal representation of an integer, as Python prints `int`. -/
def intRepr (n : Int) : List Nat :=
  if n < 0 then 45 :: natDigits n.natAbs else natDigits n.toNat

/-- `n` space characters. -/
def spaces (n : Nat) : List Nat := List.replicate n 32

mutual
/-- Pretty-printing of a JSON value at nesting level `ind`, following
`json.dumps(..., indent=2, ensure_ascii=False)`: a newline after every
opening bracket of a non-empty container, items indented by
`2 * (ind + 1)` spaces and separated by ",\n", the closing bracket on
its own line at `2 * ind` spaces, and `": "` between a key and its
value.  Empty containers print as "[]" and "\x7b\x7d". -/
def dumpVal (ind : Nat) : JVal → List Nat
  | .null => [110, 117, 108, 108]
  | .bool true => [116, 114, 117, 101]
  | .bool false => [102, 97, 108, 115, 101]
  | .num n => intRepr n
  | .str s => dumpStr s
  | .arr [] => [91, 93]
  | .arr (x :: xs) =>
      [91, 10] ++ spaces (2 * (ind + 1)) ++ dumpVal (ind + 1) x
        ++ dumpItems (ind + 1) xs ++ [10] ++ spaces (2 * ind) ++ [93]
  | .obj [] => [123, 125]
  | .obj (m :: ms) =>
      [123, 10] ++ spaces (2 * (ind + 1)) ++ dumpMember (ind + 1) m
        ++ dumpMembers (ind + 1) ms ++ [10] ++ spaces (2 * ind) ++ [125]

/-- The ",\n"-separated continuation items of a non-empty array. -/
def dumpItems (ind : Nat) : List JVal → List Nat
  | [] => []
  | x :: xs => [44, 10] ++ spaces (2 * ind) ++ dumpVal ind x ++ dumpItems ind xs

/-- One `"key": value` member of an object. -/
def dumpMember (ind : Nat) : List Nat × JVal → List Nat
  | (k, v) => dumpStr k ++ [58, 32] ++ dumpVal ind v

/-- The ",\n"-separated continuation members of a non-empty object. -/
def dumpMembers (ind : Nat) : List (List Nat × JVal) → List Nat
  | [] => []
  | m :: ms => [44, 10] ++ spaces (2 * ind) ++ dumpMember ind m ++ dumpMembers ind ms
end

/-- `json.dumps(v, indent=2, ensure_ascii=False)` of the model. -/
def jsonDumps (v : JVal) : List Nat := dumpVal 0 v

/-- JSON whitespace: space, tab, newline, carriage return. -/
def isWs (c : Nat) : Bool := c = 32 || c = 9 || c = 10 || c = 13

/-- Skip leading JSON whitespace. -/
def skipWs : List Nat → List Nat
  | [] => []
  | c :: rest => if isWs c then skipWs rest else c :: rest

/-- Whether a code point is a decimal digit character. -/
def isDigitCp (c : Nat) : Bool := 48 ≤ c && c ≤ 57

/-- Maximal-munch split of the leading run of digit characters. -/
def takeDigits : List Nat → List Nat × List Nat
  | [] => ([], [])
  | c :: rest =>
    if isDigitCp c then
      let p := takeDigits rest
      (c :: p.1, p.2)
    else ([], c :: rest)

/-- Value of a big-endian run of decimal digit characters. -/
def digitsToNat (ds : List Nat) : Nat :=
  ds.foldl (fun acc c => acc * 10 + (c - 48)) 0

/-- Whether a digit run violates JSON's number grammar by starting
with a superfluous zero ("01", "007"); a lone "0" is legal. -/
def hasLeadingZero (ds : List Nat) : Bool :=
  decide (2 ≤ ds.length) && (ds.head? == some 48)

/-- Parse an integer literal per the JSON number grammar restricted to
integers: an optional minus sign, then either a single zero or a run of
digits not starting with zero (`json.loads` raises on "01"), maximal
munch, returning the value and the remaining input. -/
def parseInt (input : List Nat) : Option (Int × List Nat) :=
  match input with
  | [] => none
  | c :: rest =>
    if c = 45 then
      let p := takeDigits rest
      if p.1.isEmpty || hasLeadingZero p.1 then none
      else some (-(digitsToNat p.1 : Int), p.2)
    else
      let p := takeDigits (c :: rest)
      if p.1.isEmpty || hasLeadingZero p.1 then none
      else some ((digitsToNat p.1 : Int), p.2)

/-- Value of one hexadecimal digit character, if it is one. -/
def parseHexDigit (c : Nat) : Option Nat :=
  if 48 ≤ c ∧ c ≤ 57 then some (c - 48)
  else if 97 ≤ c ∧ c ≤ 102 then some (c - 87)
  else if 65 ≤ c ∧ c ≤ 70 then some (c - 55)
  else none

/-- Unescaped value of a short escape character (the character after a
backslash), if legal. -/
def unescapeChar (e : Nat) : Option Nat :=
  if e = 34 then some 34
  else if e = 92 then some 92
  else if e = 47 then some 47
  else if e = 98 then some 8
  else if e = 102 then some 12
  else if e = 110 then some 10
  else if e = 114 then some 13
  else if e = 116 then some 9
  else none

/-- Parse the body of a JSON string literal after its opening quote, up
to and including the closing quote, handling backslash escapes and
`\uXXXX` (including Python's combining of an escaped high surrogate
with an immediately following escaped low surrogate), and rejecting raw
control characters (Python's strict decoder).  The fuel only bounds the
number of steps and is in surplus at every call site (each step consumes
at least one input character). -/
def parseStringBody (fuel : Nat) (input : List Nat) : Option (List Nat × List Nat) :=
  match fuel with
  | 0 => none
  | fuel + 1 =>
    match input with
    | [] => none
    | c :: rest =>
      if c = 34 then some ([], rest)
      else if c = 92 then
        match rest with
        | [] => none
        | e :: rest2 =>
          if e = 117 then
            match rest2 with
            | h1 :: h2 :: h3 :: h4 :: r =>
              match parseHexDigit h1, parseHexDigit h2, parseHexDigit h3,
                  parseHexDigit h4 with
              | some a, some b, some c2, some d =>
                if 55296 ≤ (((a * 16 + b) * 16 + c2) * 16 + d) ∧
                    (((a * 16 + b) * 16 + c2) * 16 + d) ≤ 56319 then
                  match r with
                  | 92 :: 117 :: g1 :: g2 :: g3 :: g4 :: r2 =>
                    match parseHexDigit g1, parseHexDigit g2, parseHexDigit g3,
                        parseHexDigit g4 with
                    | some a2, some b2, some c3, some d2 =>
                      if 56320 ≤ (((a2 * 16 + b2) * 16 + c3) * 16 + d2) ∧
                          (((a2 * 16 + b2) * 16 + c3) * 16 + d2) ≤ 57343 then
                        match parseStringBody fuel r2 with
                        | some (s, rr) =>
                          some ((65536
                            + ((((a * 16 + b) * 16 + c2) * 16 + d) - 55296) * 1024
                            + ((((a2 * 16 + b2) * 16 + c3) * 16 + d2) - 56320)) :: s, rr)
                        | none => none
                      else
                        match parseStringBody fuel r with
                        | some (s, rr) =>
                          some ((((a * 16 + b) * 16 + c2) * 16 + d) :: s, rr)
                        | none => none
                    | _, _, _, _ => none
                  | _ =>
                    match parseStringBody fuel r with
                    | some (s, rr) => some ((((a * 16 + b) * 16 + c2) * 16 + d) :: s, rr)
                    | none => none
                else
                  match parseStringBody fuel r with
                  | some (s, rr) => some ((((a * 16 + b) * 16 + c2) * 16 + d) :: s, rr)
                  | none => none
              | _, _, _, _ => none
            | _ => none
          else
            match unescapeChar e with
            | some u =>
              match parseStringBody fuel rest2 with
              | some (s, rr) => some (u :: s, rr)
              | none => none
            | none => none
      else if c < 32 then none
      else
        match parseStringBody fuel rest with
        | some (s, rr) => some (c :: s, rr)
        | none => none

/-- Membership of a key in a list of keys, by value. -/
def keyMem (k : List Nat) : List (List Nat) → Bool
  | [] => false
  | a :: as => (a == k) || keyMem k as

/-- Whether a key list is duplicate-free. -/
def nodupKeys : List (List Nat) → Bool
  | [] => true
  | k :: ks => !(keyMem k ks) && nodupKeys ks

/-- One step of Python's dict construction from (key, value) pairs: a
repeated key keeps the position of its first occurrence and takes the
new value; a fresh key is appended. -/
def insertKey (acc : List (List Nat × JVal)) (k : List Nat) (v : JVal) :
    List (List Nat × JVal) :=
  if keyMem k (acc.map (fun p => p.1)) then
    acc.map (fun p => if p.1 == k then (p.1, v) else p)
  else acc ++ [(k, v)]

/-- `dict(pairs)` of Python's object decoding: duplicate keys collapse
to the first occurrence's position with the last occurrence's value. -/
def dedupKeys (ms : List (List Nat × JVal)) : List (List Nat × JVal) :=
  ms.foldl (fun acc p => insertKey acc p.1 p.2) []

mutual
/-- Parse one JSON value (fuel-indexed recursion; the fuel only bounds
nesting and is in surplus for any actual input). -/
def parseVal (fuel : Nat) (input : List Nat) : Option (JVal × List Nat) :=
  match fuel with
  | 0 => none
  | fuel + 1 =>
    match input with
    | [] => none
    | c :: rest =>
      if c = 110 then
        if rest.take 3 = [117, 108, 108] then some (.null, rest.drop 3) else none
      else if c = 116 then
        if rest.take 3 = [114, 117, 101] then some (.bool true, rest.drop 3) else none
      else if c = 102 then
        if rest.take 4 = [97, 108, 115, 101] then some (.bool false, rest.drop 4) else none
      else if c = 34 then
        (parseStringBody (rest.length + 1) rest).bind (fun p => some (.str p.1, p.2))
      else if c = 91 then
        if (skipWs rest).head? == some 93 then some (.arr [], (skipWs rest).tail)
        else (parseItems fuel (skipWs rest)).bind (fun p => some (.arr p.1, p.2))
      else if c = 123 then
        if (skipWs rest).head? == some 125 then some (.obj [], (skipWs rest).tail)
        else
          (parseMembers fuel (skipWs rest)).bind
            (fun p => some (.obj (dedupKeys p.1), p.2))
      else
        (parseInt (c :: rest)).bind (fun p => some (.num p.1, p.2))

/-- Parse the items of a non-empty array after its opening bracket
(and any whitespace), consuming the closing bracket. -/
def parseItems (fuel : Nat) (input : List Nat) : Option (List JVal × List Nat) :=
  match fuel with
  | 0 => none
  | fuel + 1 =>
    (parseVal fuel (skipWs input)).bind (fun p =>
      if (skipWs p.2).head? == some 44 then
        (parseItems fuel (skipWs p.2).tail).bind (fun q => some (p.1 :: q.1, q.2))
      else if (skipWs p.2).head? == some 93 then some ([p.1], (skipWs p.2).tail)
      else none)

/-- Parse the members of a non-empty object after its opening brace
(and any whitespace), consuming the closing brace. -/
def parseMembers (fuel : Nat) (input : List Nat) :
    Option (List (List Nat × JVal) × List Nat) :=
  match fuel with
  | 0 => none
  | fuel + 1 =>
    if (skipWs input).head? == some 34 then
      (parseStringBody ((skipWs input).tail.length + 1) (skipWs input).tail).bind (fun pk =>
        if (skipWs pk.2).head? == some 58 then
          (parseVal fuel (skipWs (skipWs pk.2).tail)).bind (fun pv =>
            if (skipWs pv.2).head? == some 44 then
              (parseMembers fuel (skipWs pv.2).tail).bind
                (fun pm => some ((pk.1, pv.1) :: pm.1, pm.2))
            else if (skipWs pv.2).head? == some 125 then
              some ([(pk.1, pv.1)], (skipWs pv.2).tail)
            else none)
        else none)
    else none
end

/-- `json.loads` of the model: skip leading whitespace, parse one value
with surplus fuel, and require only whitespace to remain. -/
def jsonLoads (input : List Nat) : Option JVal :=
  match parseVal (input.length + 1) (skipWs input) with
  | some (v, rest) => if (skipWs rest).isEmpty then some v else none
  | none => none

/-! ### Parsing/printing round-trip lemmas -/

theorem skipWs_not_ws (c : Nat) (l : List Nat) (h : isWs c = false) :
    skipWs (c :: l) = c :: l := by
  simp [skipWs, h]

theorem skipWs_all (w : List Nat) : ∀ (l : List Nat), (∀ c ∈ w, isWs c = true) →
    skipWs (w ++ l) = skipWs l := by
  induction w with
  | nil => intro l _; rfl
  | cons c w ih =>
    intro l hw
    rw [List.cons_append]
    show skipWs (c :: (w ++ l)) = skipWs l
    rw [skipWs, if_pos (hw c (by simp))]
    exact ih l (fun x hx => hw x (by simp [hx]))

theorem isWs_spaces (n : Nat) : ∀ c ∈ spaces n, isWs c = true := by
  intro c hc
  have : c = 32 := by
    simpa [spaces] using List.eq_of_mem_replicate hc
  simp [this, isWs]

/-- The leading-character condition under which the integer parser's
maximal munch stops exactly at a number's printed digits. -/
def headNotDigit (l : List Nat) : Prop :=
  ∀ c, l.head? = some c → isDigitCp c = false

theorem headNotDigit_nil : headNotDigit [] := by
  intro c hc; simp at hc

theorem headNotDigit_cons (c : Nat) (l : List Nat) (h : isDigitCp c = false) :
    headNotDigit (c :: l) := by
  intro x hx
  simp at hx
  simpa [hx] using h

theorem headNotDigit_ws_append (w : List Nat) (c : Nat) (l : List Nat)
    (hw : ∀ x ∈ w, isWs x = true) (hc : isDigitCp c = false) :
    headNotDigit (w ++ c :: l) := by
  cases w with
  | nil => exact headNotDigit_cons c l hc
  | cons a w =>
    have ha : isWs a = true := hw a (by simp)
    refine headNotDigit_cons a (w ++ c :: l) ?_
    simp [isWs] at ha
    rcases ha with ((h | h) | h) | h <;> simp [h, isDigitCp]

theorem natDigits_all_digit (n : Nat) : ∀ x ∈ natDigits n, isDigitCp x = true := by
  intro x hx
  unfold natDigits at hx
  by_cases h : n = 0
  · simp [h] at hx
    simp [hx, isDigitCp]
  · simp [h] at hx
    obtain ⟨d, hd, rfl⟩ := hx
    have hlt : d < 10 := Nat.digits_lt_base (by omega) hd
    simp [isDigitCp]
    omega

theorem natDigits_ne_nil (n : Nat) : natDigits n ≠ [] := by
  unfold natDigits
  by_cases h : n = 0
  · simp [h]
  · simp [h, Nat.digits_ne_nil_iff_ne_zero]

theorem foldl_digits (L : List Nat) : ∀ (acc : Nat),
    ((L.map (fun d => d + 48)).reverse).foldl (fun acc c => acc * 10 + (c - 48)) acc
      = acc * 10 ^ L.length + Nat.ofDigits 10 L := by
  induction L with
  | nil => intro acc; simp [Nat.ofDigits]
  | cons d L ih =>
    intro acc
    simp only [List.map_cons, List.reverse_cons, List.foldl_append, List.foldl_cons,
      List.foldl_nil, ih, Nat.ofDigits_cons, List.length_cons]
    have : d + 48 - 48 = d := by omega
    rw [this]
    ring

theorem digitsToNat_natDigits (n : Nat) : digitsToNat (natDigits n) = n := by
  unfold digitsToNat natDigits
  by_cases h : n = 0
  · simp [h]
  · simp only [h, if_false]
    rw [foldl_digits (Nat.digits 10 n) 0]
    simp [Nat.ofDigits_digits]

theorem takeDigits_append (ds : List Nat) : ∀ (rest : List Nat),
    (∀ x ∈ ds, isDigitCp x = true) → headNotDigit rest →
    takeDigits (ds ++ rest) = (ds, rest) := by
  induction ds with
  | nil =>
    intro rest _ hr
    cases rest with
    | nil => rfl
    | cons c r =>
      have : isDigitCp c = false := hr c (by simp)
      simp [takeDigits, this]
  | cons d ds ih =>
    intro rest hds hr
    have hd : isDigitCp d = true := hds d (by simp)
    rw [List.cons_append]
    show takeDigits (d :: (ds ++ rest)) = (d :: ds, rest)
    rw [takeDigits]
    simp only [hd, if_true]
    rw [ih rest (fun x hx => hds x (by simp [hx])) hr]

theorem natDigits_no_leading_zero (n : Nat) : hasLeadingZero (natDigits n) = false := by
  by_cases h : n = 0
  · subst h; rfl
  · have hnil : Nat.digits 10 n ≠ [] := Nat.digits_ne_nil_iff_ne_zero.mpr h
    have hlast := Nat.getLast_digit_ne_zero 10 h
    have hhead : (natDigits n).head? = some ((Nat.digits 10 n).getLast hnil + 48) := by
      unfold natDigits
      rw [if_neg h, ← List.map_reverse, List.head?_map, List.head?_reverse,
        List.getLast?_eq_getLast _ hnil]
      rfl
    unfold hasLeadingZero
    rw [hhead]
    have : ¬ ((some ((Nat.digits 10 n).getLast hnil + 48) == some 48) = true) := by
      rw [beq_iff_eq]
      simp only [Option.some.injEq]
      omega
    simp only [Bool.and_eq_false_iff]
    right
    exact Bool.not_eq_true _ ▸ (by simpa using this)

theorem parseInt_intRepr (n : Int) (rest : List Nat) (hr : headNotDigit rest) :
    parseInt (intRepr n ++ rest) = some (n, rest) := by
  have hempty : (natDigits n.natAbs).isEmpty = false := by
    cases hnd : natDigits n.natAbs with
    | nil => exact absurd hnd (natDigits_ne_nil _)
    | cons d ds => rfl
  have hempty2 : (natDigits n.toNat).isEmpty = false := by
    cases hnd : natDigits n.toNat with
    | nil => exact absurd hnd (natDigits_ne_nil _)
    | cons d ds => rfl
  have hlz : hasLeadingZero (natDigits n.natAbs) = false := natDigits_no_leading_zero _
  have hlz2 : hasLeadingZero (natDigits n.toNat) = false := natDigits_no_leading_zero _
  by_cases hneg : n < 0
  · have hrepr : intRepr n = 45 :: natDigits n.natAbs := by
      unfold intRepr; simp [hneg]
    have htd : takeDigits (natDigits n.natAbs ++ rest) = (natDigits n.natAbs, rest) :=
      takeDigits_append _ rest (natDigits_all_digit _) hr
    rw [hrepr, List.cons_append, parseInt]
    simp only [if_pos rfl, htd, hempty, hlz, Bool.or_self, Bool.false_eq_true,
      if_false, digitsToNat_natDigits]
    have : -(n.natAbs : Int) = n := by omega
    rw [this]
    simp
  · have hrepr : intRepr n = natDigits n.toNat := by
      unfold intRepr; simp [hneg]
    have hne := natDigits_ne_nil n.toNat
    cases hnd : natDigits n.toNat with
    | nil => exact absurd hnd hne
    | cons d ds =>
      have hd : isDigitCp d = true := natDigits_all_digit n.toNat d (by simp [hnd])
      have hd45 : ¬ (d = 45) := by simp [isDigitCp] at hd; omega
      have htd : takeDigits ((d :: ds) ++ rest) = (d :: ds, rest) := by
        refine takeDigits_append (d :: ds) rest ?_ hr
        rw [← hnd]; exact natDigits_all_digit n.toNat
      rw [List.cons_append] at htd
      have hval : digitsToNat (d :: ds) = n.toNat := by
        have := digitsToNat_natDigits n.toNat
        rwa [hnd] at this
      have hempty3 : (d :: ds).isEmpty = false := rfl
      have hlz3 : hasLeadingZero (d :: ds) = false := by rw [← hnd]; exact hlz2
      rw [hrepr, hnd, List.cons_append, parseInt]
      simp only [hd45, if_false, htd, hval, hempty3, hlz3, Bool.or_self,
        Bool.false_eq_true]
      have hcast : (n.toNat : Int) = n := by omega
      rw [hcast]

theorem parseHexDigit_hexDigitChar (d : Nat) (h : d < 16) :
    parseHexDigit (hexDigitChar d) = some d := by
  unfold parseHexDigit hexDigitChar
  by_cases h10 : d < 10
  · rw [if_pos h10, if_pos (by omega)]
    congr 1
    omega
  · rw [if_neg h10, if_neg (by omega), if_pos (by omega)]
    congr 1
    omega

theorem escString_length_ge (s : List Nat) : s.length ≤ (escString s).length := by
  induction s with
  | nil => simp [escString]
  | cons c cs ih =>
    have h1 : 1 ≤ (escapeChar c).length := by
      unfold escapeChar
      split_ifs <;> simp
    simp only [escString, List.length_append, List.length_cons]
    omega

theorem parseStringBody_esc (s : List Nat) : ∀ (fuel : Nat) (rest : List Nat),
    s.length < fuel →
    parseStringBody fuel (escString s ++ 34 :: rest) = some (s, rest) := by
  induction s with
  | nil =>
    intro fuel rest hfuel
    obtain ⟨f, rfl⟩ : ∃ f, fuel = f + 1 := ⟨fuel - 1, by omega⟩
    rw [escString, List.nil_append, parseStringBody.eq_def]
    simp
  | cons c cs ih =>
    intro fuel rest hfuel
    obtain ⟨f, rfl⟩ : ∃ f, fuel = f + 1 := ⟨fuel - 1, by omega⟩
    have hcs : cs.length < f := by
      simp only [List.length_cons] at hfuel
      omega
    by_cases h92 : c = 92
    · subst h92
      rw [show escString (92 :: cs) = 92 :: 92 :: escString cs by
        simp [escString, escapeChar]]
      rw [List.cons_append, List.cons_append, parseStringBody.eq_def]
      simp [unescapeChar, ih f rest hcs]
    · by_cases h34 : c = 34
      · subst h34
        rw [show escString (34 :: cs) = 92 :: 34 :: escString cs by
          simp [escString, escapeChar]]
        rw [List.cons_append, List.cons_append, parseStringBody.eq_def]
        simp [unescapeChar, ih f rest hcs]
      · by_cases h8 : c = 8
        · subst h8
          rw [show escString (8 :: cs) = 92 :: 98 :: escString cs by
            simp [escString, escapeChar]]
          rw [List.cons_append, List.cons_append, parseStringBody.eq_def]
          simp [unescapeChar, ih f rest hcs]
        · by_cases h12 : c = 12
          · subst h12
            rw [show escString (12 :: cs) = 92 :: 102 :: escString cs by
              simp [escString, escapeChar]]
            rw [List.cons_append, List.cons_append, parseStringBody.eq_def]
            simp [unescapeChar, ih f rest hcs]
          · by_cases h10 : c = 10
            · subst h10
              rw [show escString (10 :: cs) = 92 :: 110 :: escString cs by
                simp [escString, escapeChar]]
              rw [List.cons_append, List.cons_append, parseStringBody.eq_def]
              simp [unescapeChar, ih f rest hcs]
            · by_cases h13 : c = 13
              · subst h13
                rw [show escString (13 :: cs) = 92 :: 114 :: escString cs by
                  simp [escString, escapeChar]]
                rw [List.cons_append, List.cons_append, parseStringBody.eq_def]
                simp [unescapeChar, ih f rest hcs]
              · by_cases h9 : c = 9
                · subst h9
                  rw [show escString (9 :: cs) = 92 :: 116 :: escString cs by
                    simp [escString, escapeChar]]
                  rw [List.cons_append, List.cons_append, parseStringBody.eq_def]
                  simp [unescapeChar, ih f rest hcs]
                · by_cases hctl : c < 32
                  · have hesc : escString (c :: cs) = 92 :: 117 :: 48 :: 48 ::
                        hexDigitChar (c / 16) :: hexDigitChar (c % 16) :: escString cs := by
                      rw [escString]
                      rw [show escapeChar c = [92, 117, 48, 48, hexDigitChar (c / 16),
                        hexDigitChar (c % 16)] by
                          unfold escapeChar
                          simp [h92, h34, h8, h12, h10, h13, h9, hctl]]
                      simp
                    have hdiv : c / 16 < 16 := by omega
                    have hmod : c % 16 < 16 := by omega
                    have h1 := parseHexDigit_hexDigitChar (c / 16) hdiv
                    have h2 := parseHexDigit_hexDigitChar (c % 16) hmod
                    have h48 : parseHexDigit 48 = some 0 := by decide
                    have hval : ((0 * 16 + 0) * 16 + c / 16) * 16 + c % 16 = c := by omega
                    have hsur : ¬ (55296 ≤ c ∧ c ≤ 56319) := by omega
                    rw [hesc]
                    rw [List.cons_append, List.cons_append, List.cons_append,
                      List.cons_append, List.cons_append, List.cons_append,
                      parseStringBody.eq_def]
                    simp only [show ¬ ((92 : Nat) = 34) by decide, if_false, if_pos rfl,
                      h48, h1, h2, hval, if_neg hsur, ih f rest hcs]
                    simp [hval]
                  · have hesc : escString (c :: cs) = c :: escString cs := by
                      rw [escString]
                      rw [show escapeChar c = [c] by
                        unfold escapeChar
                        simp [h92, h34, h8, h12, h10, h13, h9, hctl]]
                      simp
                    rw [hesc, List.cons_append, parseStringBody.eq_def]
                    simp [h34, h92, hctl, ih f rest hcs]

/-- The possible first characters of a printed JSON value. -/
def dumpHeadOk (c : Nat) : Prop :=
  c = 110 ∨ c = 116 ∨ c = 102 ∨ c = 34 ∨ c = 91 ∨ c = 123 ∨ c = 45 ∨ isDigitCp c = true

theorem dumpHeadOk_not_ws (c : Nat) (h : dumpHeadOk c) : isWs c = false := by
  unfold dumpHeadOk isDigitCp at h
  simp at h
  simp [isWs]
  rcases h with h | h | h | h | h | h | h | h <;> omega

theorem dumpHeadOk_not_digit_93_125_44 (c : Nat) (h : dumpHeadOk c) :
    c ≠ 93 ∧ c ≠ 125 ∧ c ≠ 44 := by
  unfold dumpHeadOk at h
  unfold isDigitCp at h
  simp at h
  omega

theorem intRepr_head (n : Int) :
    ∃ c t, intRepr n = c :: t ∧ (c = 45 ∨ isDigitCp c = true) := by
  by_cases hneg : n < 0
  · exact ⟨45, natDigits n.natAbs, by unfold intRepr; simp [hneg], Or.inl rfl⟩
  · have hrepr : intRepr n = natDigits n.toNat := by unfold intRepr; simp [hneg]
    cases hnd : natDigits n.toNat with
    | nil => exact absurd hnd (natDigits_ne_nil _)
    | cons d ds =>
      exact ⟨d, ds, by rw [hrepr, hnd],
        Or.inr (natDigits_all_digit n.toNat d (by simp [hnd]))⟩

theorem dumpVal_head (ind : Nat) (v : JVal) :
    ∃ c t, dumpVal ind v = c :: t ∧ dumpHeadOk c := by
  cases v with
  | null => exact ⟨110, _, rfl, Or.inl rfl⟩
  | bool b =>
    cases b with
    | true => exact ⟨116, _, rfl, Or.inr (Or.inl rfl)⟩
    | false => exact ⟨102, _, rfl, Or.inr (Or.inr (Or.inl rfl))⟩
  | num n =>
    obtain ⟨c, t, hrepr, hc⟩ := intRepr_head n
    refine ⟨c, t, ?_, ?_⟩
    · rw [show dumpVal ind (.num n) = intRepr n from rfl, hrepr]
    · unfold dumpHeadOk
      tauto
  | str s => exact ⟨34, _, rfl, by unfold dumpHeadOk; tauto⟩
  | arr items =>
    cases items with
    | nil => exact ⟨91, _, rfl, by unfold dumpHeadOk; tauto⟩
    | cons x xs => exact ⟨91, _, rfl, by unfold dumpHeadOk; tauto⟩
  | obj members =>
    cases members with
    | nil => exact ⟨123, _, rfl, by unfold dumpHeadOk; tauto⟩
    | cons m ms => exact ⟨123, _, rfl, by unfold dumpHeadOk; tauto⟩

mutual
/-- Fuel requirement of the value parser on a printed value. -/
def jsize : JVal → Nat
  | .null => 1
  | .bool _ => 1
  | .num _ => 1
  | .str _ => 1
  | .arr items => 1 + lsize items
  | .obj members => 1 + msize members

/-- Fuel requirement of the item parser on printed array items. -/
def lsize : List JVal → Nat
  | [] => 1
  | x :: xs => 1 + jsize x + lsize xs

/-- Fuel requirement of the member parser on printed object members. -/
def msize : List (List Nat × JVal) → Nat
  | [] => 1
  | m :: ms => 1 + jsize m.2 + msize ms
end

theorem jsize_pos (v : JVal) : 1 ≤ jsize v := by
  cases v <;> simp [jsize]

theorem lsize_pos (xs : List JVal) : 1 ≤ lsize xs := by
  cases xs <;> simp [lsize] <;> omega

theorem msize_pos (ms : List (List Nat × JVal)) : 1 ≤ msize ms := by
  cases ms <;> simp [msize] <;> omega

mutual
theorem jsize_le_dump (ind : Nat) (v : JVal) : jsize v ≤ (dumpVal ind v).length + 1 := by
  cases v with
  | null => simp [jsize, dumpVal]
  | bool b => cases b <;> simp [jsize, dumpVal]
  | num n => simp [jsize]
  | str s => simp [jsize]
  | arr items =>
    cases items with
    | nil => simp [jsize, lsize, dumpVal]
    | cons x xs =>
      have h1 := jsize_le_dump (ind + 1) x
      have h2 := lsize_le_dumpItems (ind + 1) xs
      simp only [jsize, lsize, dumpVal, List.length_append, List.length_cons,
        List.length_nil]
      omega
  | obj members =>
    cases members with
    | nil => simp [jsize, msize, dumpVal]
    | cons m ms =>
      have h1 := msize_le_dumpMembers (ind + 1) ms
      have h2 := jsize_le_dump (ind + 1) m.2
      have h3 : (dumpMember (ind + 1) m).length = (dumpStr m.1).length + 2
          + (dumpVal (ind + 1) m.2).length := by
        obtain ⟨k, v2⟩ := m
        simp [dumpMember, List.length_append]
        omega
      simp only [jsize, msize, dumpVal, List.length_append, List.length_cons,
        List.length_nil]
      omega

theorem lsize_le_dumpItems (ind : Nat) (xs : List JVal) :
    lsize xs ≤ (dumpItems ind xs).length + 1 := by
  cases xs with
  | nil => simp [lsize, dumpItems]
  | cons x xs =>
    have h1 := jsize_le_dump ind x
    have h2 := lsize_le_dumpItems ind xs
    simp only [lsize, dumpItems, List.length_append, List.length_cons, List.length_nil]
    omega

theorem msize_le_dumpMembers (ind : Nat) (ms : List (List Nat × JVal)) :
    msize ms ≤ (dumpMembers ind ms).length + 1 := by
  cases ms with
  | nil => simp [msize, dumpMembers]
  | cons m ms =>
    have h1 := jsize_le_dump ind m.2
    have h2 := msize_le_dumpMembers ind ms
    have h3 : (dumpMember ind m).length = (dumpStr m.1).length + 2
        + (dumpVal ind m.2).length := by
      obtain ⟨k, v2⟩ := m
      simp [dumpMember, List.length_append]
      omega
    simp only [msize, dumpMembers, List.length_append, List.length_cons, List.length_nil]
    omega
end

mutual
/-- Well-formedness of a decoded JSON value: every object node has
duplicate-free keys.  This is an invariant of everything `jsonLoads`
returns, since object decoding goes through `dedupKeys`. -/
def wfVal : JVal → Bool
  | .null => true
  | .bool _ => true
  | .num _ => true
  | .str _ => true
  | .arr items => wfItems items
  | .obj members =>
      nodupKeys (members.map (fun p => p.1)) && wfMembers members

/-- Well-formedness of a list of array items. -/
def wfItems : List JVal → Bool
  | [] => true
  | x :: xs => wfVal x && wfItems xs

/-- Well-formedness of the values of a list of object members. -/
def wfMembers : List (List Nat × JVal) → Bool
  | [] => true
  | m :: ms => wfVal m.2 && wfMembers ms
end

theorem skipWs_dump (ind : Nat) (v : JVal) (l : List Nat) :
    skipWs (dumpVal ind v ++ l) = dumpVal ind v ++ l := by
  obtain ⟨c, t, h, hok⟩ := dumpVal_head ind v
  rw [h, List.cons_append]
  exact skipWs_not_ws c (t ++ l) (dumpHeadOk_not_ws c hok)

theorem dump_head_beq_false (ind : Nat) (v : JVal) (l : List Nat) (x : Nat)
    (hx : x = 93 ∨ x = 125 ∨ x = 44) :
    ((dumpVal ind v ++ l).head? == some x) = false := by
  obtain ⟨c, t, h, hok⟩ := dumpVal_head ind v
  obtain ⟨h93, h125, h44⟩ := dumpHeadOk_not_digit_93_125_44 c hok
  rw [h, List.cons_append]
  simp only [List.head?_cons]
  rw [beq_eq_false_iff_ne]
  simp only [ne_eq, Option.some.injEq]
  rcases hx with rfl | rfl | rfl <;> omega

theorem headNotDigit_items (ind : Nat) (xs : List JVal) (w rest : List Nat)
    (hw : ∀ c ∈ w, isWs c = true) :
    headNotDigit (dumpItems ind xs ++ (w ++ 93 :: rest)) := by
  cases xs with
  | nil =>
    rw [dumpItems, List.nil_append]
    exact headNotDigit_ws_append w 93 rest hw (by decide)
  | cons y ys =>
    rw [dumpItems]
    simp only [List.cons_append, List.append_assoc]
    exact headNotDigit_cons 44 _ (by decide)

theorem headNotDigit_members (ind : Nat) (ms : List (List Nat × JVal)) (w rest : List Nat)
    (hw : ∀ c ∈ w, isWs c = true) :
    headNotDigit (dumpMembers ind ms ++ (w ++ 125 :: rest)) := by
  cases ms with
  | nil =>
    rw [dumpMembers, List.nil_append]
    exact headNotDigit_ws_append w 125 rest hw (by decide)
  | cons m ms =>
    rw [dumpMembers]
    simp only [List.cons_append, List.append_assoc]
    exact headNotDigit_cons 44 _ (by decide)

theorem isWs_cons_spaces (n : Nat) : ∀ c ∈ 10 :: spaces n, isWs c = true := by
  intro c hc
  rcases List.mem_cons.mp hc with rfl | h
  · rfl
  · exact isWs_spaces n c h

theorem skipWs_ws (c : Nat) (l : List Nat) (h : isWs c = true) :
    skipWs (c :: l) = skipWs l := by
  simp [skipWs, h]

theorem keyMem_append (k : List Nat) (A B : List (List Nat)) :
    keyMem k (A ++ B) = (keyMem k A || keyMem k B) := by
  induction A with
  | nil => simp [keyMem]
  | cons a A ih =>
    simp [keyMem, ih, Bool.or_assoc]

theorem keyMem_false_of_nodup_mid (A : List (List Nat)) (x : List Nat)
    (B : List (List Nat)) (h : nodupKeys (A ++ x :: B) = true) :
    keyMem x A = false := by
  induction A with
  | nil => rfl
  | cons a A ih =>
    simp only [List.cons_append, nodupKeys, Bool.and_eq_true, List.append_eq] at h
    obtain ⟨hna, hrest⟩ := h
    have hx : keyMem a (A ++ x :: B) = false := by simpa using hna
    rw [keyMem_append] at hx
    simp only [keyMem, Bool.or_eq_false_iff] at hx
    have hax : (x == a) = false := hx.2.1
    have hne : ¬ (a = x) := by
      intro he
      subst he
      simp at hax
    have h1 : (a == x) = false := by
      rw [beq_eq_false_iff_ne]
      exact hne
    have hrest2 : nodupKeys (A ++ x :: B) = true := by simpa using hrest
    simp [keyMem, ih hrest2, h1]

theorem foldl_insertKey_of_nodup (ms : List (List Nat × JVal)) :
    ∀ (acc : List (List Nat × JVal)),
    nodupKeys ((acc ++ ms).map (fun p => p.1)) = true →
    ms.foldl (fun a p => insertKey a p.1 p.2) acc = acc ++ ms := by
  induction ms with
  | nil => intro acc _; simp
  | cons m ms ih =>
    intro acc h
    obtain ⟨k, v⟩ := m
    have hmem : keyMem k (acc.map (fun p => p.1)) = false := by
      refine keyMem_false_of_nodup_mid (acc.map (fun p => p.1)) k
        (ms.map (fun p => p.1)) ?_
      simpa using h
    have hik : insertKey acc k v = acc ++ [(k, v)] := by
      unfold insertKey
      rw [hmem]
      simp
    have hre : (acc ++ [(k, v)]) ++ ms = acc ++ (k, v) :: ms := by
      simp
    have ihres := ih (acc ++ [(k, v)]) (by rw [hre]; simpa using h)
    simp only [List.foldl_cons, hik, ihres, hre]

theorem dedupKeys_id (ms : List (List Nat × JVal))
    (h : nodupKeys (ms.map (fun p => p.1)) = true) : dedupKeys ms = ms := by
  unfold dedupKeys
  have := foldl_insertKey_of_nodup ms [] (by simpa using h)
  simpa using this

theorem map_keys_update (acc : List (List Nat × JVal)) (k : List Nat) (v : JVal) :
    (acc.map (fun p => if p.1 == k then (p.1, v) else p)).map (fun p => p.1)
      = acc.map (fun p => p.1) := by
  induction acc with
  | nil => rfl
  | cons a as ih =>
    simp only [List.map_cons, ih]
    by_cases h : (a.1 == k) = true
    · rw [if_pos h]
    · rw [if_neg h]

theorem nodupKeys_snoc (ks : List (List Nat)) (k : List Nat)
    (h1 : nodupKeys ks = true) (h2 : keyMem k ks = false) :
    nodupKeys (ks ++ [k]) = true := by
  induction ks with
  | nil => rfl
  | cons a as ih =>
    simp only [keyMem, Bool.or_eq_false_iff] at h2
    simp only [nodupKeys, Bool.and_eq_true] at h1
    simp only [List.cons_append, nodupKeys, Bool.and_eq_true]
    refine ⟨?_, ih h1.2 h2.2⟩
    have ha : keyMem a as = false := by
      have := h1.1
      simp only [Bool.not_eq_true'] at this
      exact this
    have hk : keyMem a [k] = false := by
      have hak : (a == k) = false := h2.1
      have hne : ¬ (k = a) := by
        intro he
        subst he
        simp at hak
      simp [keyMem, beq_eq_false_iff_ne, hne]
    rw [show as.append [k] = as ++ [k] from rfl, keyMem_append, ha, hk]
    rfl

theorem nodup_insertKey (acc : List (List Nat × JVal)) (k : List Nat) (v : JVal)
    (h : nodupKeys (acc.map (fun p => p.1)) = true) :
    nodupKeys ((insertKey acc k v).map (fun p => p.1)) = true := by
  unfold insertKey
  by_cases hk : keyMem k (acc.map (fun p => p.1)) = true
  · rw [if_pos hk, map_keys_update]
    exact h
  · rw [if_neg hk, List.map_append]
    simp only [List.map_cons, List.map_nil]
    exact nodupKeys_snoc _ k h (Bool.eq_false_iff.mpr hk)

theorem wfMembers_update (acc : List (List Nat × JVal)) (k : List Nat) (v : JVal)
    (hv : wfVal v = true) (h : wfMembers acc = true) :
    wfMembers (acc.map (fun p => if p.1 == k then (p.1, v) else p)) = true := by
  induction acc with
  | nil => rfl
  | cons a as ih =>
    simp only [wfMembers, Bool.and_eq_true] at h
    simp only [List.map_cons, wfMembers, Bool.and_eq_true]
    refine ⟨?_, ih h.2⟩
    by_cases hk : (a.1 == k) = true
    · rw [if_pos hk]
      exact hv
    · rw [if_neg hk]
      exact h.1

theorem wfMembers_snoc (acc : List (List Nat × JVal)) (k : List Nat) (v : JVal)
    (hv : wfVal v = true) (h : wfMembers acc = true) :
    wfMembers (acc ++ [(k, v)]) = true := by
  induction acc with
  | nil => simp [wfMembers, hv]
  | cons a as ih =>
    simp only [wfMembers, Bool.and_eq_true] at h
    simp only [List.cons_append, wfMembers, Bool.and_eq_true]
    exact ⟨h.1, ih h.2⟩

theorem wfMembers_insertKey (acc : List (List Nat × JVal)) (k : List Nat) (v : JVal)
    (hv : wfVal v = true) (h : wfMembers acc = true) :
    wfMembers (insertKey acc k v) = true := by
  unfold insertKey
  by_cases hk : keyMem k (acc.map (fun p => p.1)) = true
  · rw [if_pos hk]
    exact wfMembers_update acc k v hv h
  · rw [if_neg hk]
    exact wfMembers_snoc acc k v hv h

theorem dedupKeys_wf (ms : List (List Nat × JVal)) :
    ∀ acc, wfMembers ms = true →
      nodupKeys (acc.map (fun p => p.1)) = true →
      wfMembers acc = true →
      nodupKeys ((ms.foldl (fun a p => insertKey a p.1 p.2) acc).map
          (fun p => p.1)) = true ∧
      wfMembers (ms.foldl (fun a p => insertKey a p.1 p.2) acc) = true := by
  induction ms with
  | nil =>
    intro acc _ h1 h2
    exact ⟨h1, h2⟩
  | cons m ms ih =>
    intro acc hms h1 h2
    simp only [wfMembers, Bool.and_eq_true] at hms
    simp only [List.foldl_cons]
    exact ih (insertKey acc m.1 m.2) hms.2 (nodup_insertKey acc m.1 m.2 h1)
      (wfMembers_insertKey acc m.1 m.2 hms.1 h2)

theorem wfVal_obj_dedup (ms : List (List Nat × JVal)) (h : wfMembers ms = true) :
    wfVal (.obj (dedupKeys ms)) = true := by
  have hd := dedupKeys_wf ms [] h rfl rfl
  unfold dedupKeys
  simp only [wfVal, Bool.and_eq_true]
  exact hd

theorem parse_dump_all (N : Nat) :
    (∀ (ind fuel : Nat) (v : JVal) (rest : List Nat), jsize v < N → jsize v ≤ fuel →
        headNotDigit rest → wfVal v = true →
        parseVal fuel (dumpVal ind v ++ rest) = some (v, rest)) ∧
    (∀ (ind fuel : Nat) (x : JVal) (xs : List JVal) (w0 w rest : List Nat),
        lsize (x :: xs) < N → lsize (x :: xs) ≤ fuel →
        (∀ c ∈ w0, isWs c = true) → (∀ c ∈ w, isWs c = true) →
        wfItems (x :: xs) = true →
        parseItems fuel
            (w0 ++ (dumpVal ind x ++ (dumpItems ind xs ++ (w ++ 93 :: rest))))
          = some (x :: xs, rest)) ∧
    (∀ (ind fuel : Nat) (k : List Nat) (v : JVal) (ms : List (List Nat × JVal))
        (w0 w rest : List Nat),
        msize ((k, v) :: ms) < N → msize ((k, v) :: ms) ≤ fuel →
        (∀ c ∈ w0, isWs c = true) → (∀ c ∈ w, isWs c = true) →
        wfMembers ((k, v) :: ms) = true →
        parseMembers fuel
            (w0 ++ (dumpMember ind (k, v) ++ (dumpMembers ind ms ++ (w ++ 125 :: rest))))
          = some ((k, v) :: ms, rest)) := by
  induction N with
  | zero =>
    refine ⟨fun ind fuel v rest hN => ?_, fun ind fuel x xs w0 w rest hN => ?_,
      fun ind fuel k v ms w0 w rest hN => ?_⟩ <;> intros <;> omega
  | succ N ih =>
    obtain ⟨ihv, ihi, ihm⟩ := ih
    refine ⟨?_, ?_, ?_⟩
    · -- parseVal on a printed value
      intro ind fuel v rest hN hf hrest hwf
      obtain ⟨f, rfl⟩ : ∃ f, fuel = f + 1 := ⟨fuel - 1, by have := jsize_pos v; omega⟩
      cases v with
      | null => rfl
      | bool b => cases b <;> rfl
      | num n =>
        obtain ⟨c, t, hrepr, hc⟩ := intRepr_head n
        have hcb : c = 45 ∨ (48 ≤ c ∧ c ≤ 57) := by
          rcases hc with h | h
          · exact Or.inl h
          · unfold isDigitCp at h; simp at h; omega
        have h110 : ¬ (c = 110) := by omega
        have h116 : ¬ (c = 116) := by omega
        have h102 : ¬ (c = 102) := by omega
        have h34 : ¬ (c = 34) := by omega
        have h91 : ¬ (c = 91) := by omega
        have h123 : ¬ (c = 123) := by omega
        show parseVal (f + 1) (intRepr n ++ rest) = some (.num n, rest)
        rw [hrepr, List.cons_append, parseVal]
        rw [if_neg h110, if_neg h116, if_neg h102, if_neg h34, if_neg h91,
          if_neg h123]
        rw [← List.cons_append, ← hrepr, parseInt_intRepr n rest hrest]
        rfl
      | str s =>
        show parseVal (f + 1) (dumpStr s ++ rest) = some (.str s, rest)
        rw [show dumpStr s ++ rest = 34 :: (escString s ++ 34 :: rest) by
          simp [dumpStr]]
        rw [parseVal]
        have hlen : s.length < (escString s ++ 34 :: rest).length + 1 := by
          have := escString_length_ge s
          simp only [List.length_append, List.length_cons]
          omega
        rw [if_neg (show ¬ ((34:Nat) = 110) by decide),
          if_neg (show ¬ ((34:Nat) = 116) by decide),
          if_neg (show ¬ ((34:Nat) = 102) by decide), if_pos rfl,
          parseStringBody_esc s ((escString s ++ 34 :: rest).length + 1) rest hlen]
        rfl
      | arr items =>
        cases items with
        | nil => rfl
        | cons x xs =>
          have hsizes : lsize (x :: xs) < N ∧ lsize (x :: xs) ≤ f := by
            have h2 : jsize (JVal.arr (x :: xs)) < N + 1 := hN
            have h3 : jsize (JVal.arr (x :: xs)) ≤ f + 1 := hf
            simp [jsize] at h2 h3
            omega
          have hwfi : wfItems (x :: xs) = true := by
            have h0 : wfVal (JVal.arr (x :: xs)) = true := hwf
            simpa [wfVal] using h0
          have hitems := ihi (ind + 1) f x xs [] (10 :: spaces (2 * ind)) rest
            hsizes.1 hsizes.2 (by intro c hc; simp at hc) (isWs_cons_spaces (2 * ind))
            hwfi
          rw [List.nil_append] at hitems
          show parseVal (f + 1)
            (([91, 10] ++ spaces (2 * (ind + 1)) ++ dumpVal (ind + 1) x
              ++ dumpItems (ind + 1) xs ++ [10] ++ spaces (2 * ind) ++ [93]) ++ rest)
            = some (.arr (x :: xs), rest)
          rw [show ([91, 10] ++ spaces (2 * (ind + 1)) ++ dumpVal (ind + 1) x
              ++ dumpItems (ind + 1) xs ++ [10] ++ spaces (2 * ind) ++ [93]) ++ rest
              = 91 :: ((10 :: spaces (2 * (ind + 1)))
                  ++ (dumpVal (ind + 1) x
                    ++ (dumpItems (ind + 1) xs
                      ++ ((10 :: spaces (2 * ind)) ++ 93 :: rest))))
            by simp [List.append_assoc]]
          rw [parseVal]
          rw [if_neg (show ¬ ((91:Nat) = 110) by decide),
            if_neg (show ¬ ((91:Nat) = 116) by decide),
            if_neg (show ¬ ((91:Nat) = 102) by decide),
            if_neg (show ¬ ((91:Nat) = 34) by decide), if_pos rfl]
          rw [skipWs_all (10 :: spaces (2 * (ind + 1))) _ (isWs_cons_spaces _),
            skipWs_dump]
          rw [dump_head_beq_false (ind + 1) x _ 93 (Or.inl rfl)]
          rw [if_neg (show ¬ (false = true) by decide)]
          rw [hitems]
          rfl
      | obj members =>
        cases members with
        | nil => rfl
        | cons m ms =>
          obtain ⟨k, v⟩ := m
          have hsizes : msize ((k, v) :: ms) < N ∧ msize ((k, v) :: ms) ≤ f := by
            have h2 : jsize (JVal.obj ((k, v) :: ms)) < N + 1 := hN
            have h3 : jsize (JVal.obj ((k, v) :: ms)) ≤ f + 1 := hf
            simp [jsize] at h2 h3
            omega
          have hwfo : nodupKeys (((k, v) :: ms).map (fun p => p.1)) = true ∧
              wfMembers ((k, v) :: ms) = true := by
            have h0 : wfVal (JVal.obj ((k, v) :: ms)) = true := hwf
            simpa [wfVal, Bool.and_eq_true] using h0
          have hmembers := ihm (ind + 1) f k v ms [] (10 :: spaces (2 * ind)) rest
            hsizes.1 hsizes.2 (by intro c hc; simp at hc) (isWs_cons_spaces (2 * ind))
            hwfo.2
          rw [List.nil_append] at hmembers
          show parseVal (f + 1)
            (([123, 10] ++ spaces (2 * (ind + 1)) ++ dumpMember (ind + 1) (k, v)
              ++ dumpMembers (ind + 1) ms ++ [10] ++ spaces (2 * ind) ++ [125]) ++ rest)
            = some (.obj ((k, v) :: ms), rest)
          rw [show ([123, 10] ++ spaces (2 * (ind + 1)) ++ dumpMember (ind + 1) (k, v)
              ++ dumpMembers (ind + 1) ms ++ [10] ++ spaces (2 * ind) ++ [125]) ++ rest
              = 123 :: ((10 :: spaces (2 * (ind + 1)))
                  ++ (dumpMember (ind + 1) (k, v)
                    ++ (dumpMembers (ind + 1) ms
                      ++ ((10 :: spaces (2 * ind)) ++ 125 :: rest))))
            by simp [List.append_assoc]]
          rw [parseVal]
          rw [if_neg (show ¬ ((123:Nat) = 110) by decide),
            if_neg (show ¬ ((123:Nat) = 116) by decide),
            if_neg (show ¬ ((123:Nat) = 102) by decide),
            if_neg (show ¬ ((123:Nat) = 34) by decide),
            if_neg (show ¬ ((123:Nat) = 91) by decide), if_pos rfl]
          rw [skipWs_all (10 :: spaces (2 * (ind + 1))) _ (isWs_cons_spaces _)]
          have hm34 : ∃ t34, dumpMember (ind + 1) (k, v) = 34 :: t34 :=
            ⟨escString k ++ [34] ++ ([58, 32] ++ dumpVal (ind + 1) v),
              by simp [dumpMember, dumpStr, List.append_assoc]⟩
          obtain ⟨t34, hm34⟩ := hm34
          rw [hm34, List.cons_append, skipWs_not_ws 34 _ (by decide)]
          simp only [List.head?_cons]
          rw [if_neg (show ¬ ((some (34:Nat) == some 125) = true) by decide)]
          rw [← List.cons_append, ← hm34]
          rw [hmembers]
          simp only [Option.some_bind]
          rw [dedupKeys_id _ hwfo.1]
    · -- parseItems on printed items
      intro ind fuel x xs w0 w rest hN hf hw0 hw hwf
      have hwfx : wfVal x = true ∧ wfItems xs = true := by
        simpa [wfItems, Bool.and_eq_true] using hwf
      obtain ⟨f, rfl⟩ : ∃ f, fuel = f + 1 :=
        ⟨fuel - 1, by have := lsize_pos (x :: xs); omega⟩
      have hjx : jsize x < N ∧ jsize x ≤ f := by
        have h2 : lsize (x :: xs) < N + 1 := hN
        have h3 : lsize (x :: xs) ≤ f + 1 := hf
        have h4 := lsize_pos xs
        simp [lsize] at h2 h3
        omega
      rw [parseItems]
      rw [skipWs_all w0 _ hw0, skipWs_dump]
      rw [ihv ind f x _ hjx.1 hjx.2 (headNotDigit_items ind xs w rest hw) hwfx.1]
      rw [Option.some_bind]
      cases xs with
      | nil =>
        simp only [dumpItems, List.nil_append]
        rw [skipWs_all w _ hw, skipWs_not_ws 93 rest (by decide)]
        simp
      | cons y ys =>
        have hys : lsize (y :: ys) < N ∧ lsize (y :: ys) ≤ f := by
          have h2 : lsize (x :: y :: ys) < N + 1 := hN
          have h3 : lsize (x :: y :: ys) ≤ f + 1 := hf
          have h4 := jsize_pos x
          simp [lsize] at h2 h3 ⊢
          omega
        have hrec := ihi ind f y ys (10 :: spaces (2 * ind)) w rest hys.1 hys.2
          (isWs_cons_spaces _) hw hwfx.2
        rw [show dumpItems ind (y :: ys) ++ (w ++ 93 :: rest)
            = 44 :: ((10 :: spaces (2 * ind))
                ++ (dumpVal ind y ++ (dumpItems ind ys ++ (w ++ 93 :: rest))))
          by simp [dumpItems, List.append_assoc]]
        rw [skipWs_not_ws 44 _ (by decide)]
        simp only [List.head?_cons, List.tail_cons]
        rw [if_pos (by rfl)]
        rw [hrec]
        rfl
    · -- parseMembers on printed members
      intro ind fuel k v ms w0 w rest hN hf hw0 hw hwf
      have hwfv : wfVal v = true ∧ wfMembers ms = true := by
        simpa [wfMembers, Bool.and_eq_true] using hwf
      obtain ⟨f, rfl⟩ : ∃ f, fuel = f + 1 :=
        ⟨fuel - 1, by have := msize_pos ((k, v) :: ms); omega⟩
      have hjv : jsize v < N ∧ jsize v ≤ f := by
        have h2 : msize ((k, v) :: ms) < N + 1 := hN
        have h3 : msize ((k, v) :: ms) ≤ f + 1 := hf
        have h4 := msize_pos ms
        simp [msize] at h2 h3
        omega
      rw [parseMembers]
      rw [skipWs_all w0 _ hw0]
      rw [show dumpMember ind (k, v) ++ (dumpMembers ind ms ++ (w ++ 125 :: rest))
          = 34 :: (escString k
              ++ 34 :: (58 :: 32 :: (dumpVal ind v
                ++ (dumpMembers ind ms ++ (w ++ 125 :: rest)))))
        by simp [dumpMember, dumpStr, List.append_assoc]]
      rw [skipWs_not_ws 34 _ (by decide)]
      simp only [List.head?_cons, List.tail_cons]
      rw [if_pos (by rfl)]
      have hlenk : k.length < (escString k
          ++ 34 :: (58 :: 32 :: (dumpVal ind v
            ++ (dumpMembers ind ms ++ (w ++ 125 :: rest))))).length + 1 := by
        have := escString_length_ge k
        simp only [List.length_append, List.length_cons]
        omega
      rw [parseStringBody_esc k _ _ hlenk]
      simp only [Option.some_bind]
      rw [skipWs_not_ws 58 _ (by decide)]
      simp only [List.head?_cons, List.tail_cons]
      rw [if_pos (by rfl)]
      rw [skipWs_ws 32 _ (by decide), skipWs_dump]
      rw [ihv ind f v _ hjv.1 hjv.2 (headNotDigit_members ind ms w rest hw) hwfv.1]
      simp only [Option.some_bind]
      cases ms with
      | nil =>
        simp only [dumpMembers, List.nil_append]
        rw [skipWs_all w _ hw, skipWs_not_ws 125 rest (by decide)]
        simp
      | cons m2 ms2 =>
        obtain ⟨k2, v2⟩ := m2
        have hms2 : msize ((k2, v2) :: ms2) < N ∧ msize ((k2, v2) :: ms2) ≤ f := by
          have h2 : msize ((k, v) :: (k2, v2) :: ms2) < N + 1 := hN
          have h3 : msize ((k, v) :: (k2, v2) :: ms2) ≤ f + 1 := hf
          have h4 := jsize_pos v
          simp [msize] at h2 h3 ⊢
          omega
        have hrec := ihm ind f k2 v2 ms2 (10 :: spaces (2 * ind)) w rest hms2.1 hms2.2
          (isWs_cons_spaces _) hw hwfv.2
        rw [show dumpMembers ind ((k2, v2) :: ms2) ++ (w ++ 125 :: rest)
            = 44 :: ((10 :: spaces (2 * ind))
                ++ (dumpMember ind (k2, v2)
                  ++ (dumpMembers ind ms2 ++ (w ++ 125 :: rest))))
          by simp [dumpMembers, List.append_assoc]]
        rw [skipWs_not_ws 44 _ (by decide)]
        simp only [List.head?_cons, List.tail_cons]
        rw [if_pos (by rfl)]
        rw [hrec]
        rfl

theorem parseVal_dump (ind fuel : Nat) (v : JVal) (rest : List Nat)
    (hf : jsize v ≤ fuel) (hrest : headNotDigit rest) (hwf : wfVal v = true) :
    parseVal fuel (dumpVal ind v ++ rest) = some (v, rest) :=
  (parse_dump_all (jsize v + 1)).1 ind fuel v rest (Nat.lt_succ_self _) hf hrest hwf

/-- Every value the parser produces is well-formed: its objects have
duplicate-free key lists (`dedupKeys` is applied at each object
construction). -/
theorem parse_wf (fuel : Nat) :
    (∀ (input : List Nat) (v : JVal) (rest : List Nat),
        parseVal fuel input = some (v, rest) → wfVal v = true) ∧
    (∀ (input : List Nat) (xs : List JVal) (rest : List Nat),
        parseItems fuel input = some (xs, rest) → wfItems xs = true) ∧
    (∀ (input : List Nat) (ms : List (List Nat × JVal)) (rest : List Nat),
        parseMembers fuel input = some (ms, rest) → wfMembers ms = true) := by
  induction fuel with
  | zero =>
    refine ⟨fun input v rest h => ?_, fun input xs rest h => ?_,
      fun input ms rest h => ?_⟩
    · rw [parseVal] at h
      exact Option.noConfusion h
    · rw [parseItems] at h
      exact Option.noConfusion h
    · rw [parseMembers] at h
      exact Option.noConfusion h
  | succ f ih =>
    obtain ⟨ihv, ihi, ihm⟩ := ih
    refine ⟨fun input v rest h => ?_, fun input xs rest h => ?_,
      fun input ms rest h => ?_⟩
    · cases input with
      | nil =>
        rw [parseVal] at h
        exact Option.noConfusion h
      | cons c cs =>
        rw [parseVal] at h
        by_cases h110 : c = 110
        · rw [if_pos h110] at h
          by_cases ht : cs.take 3 = [117, 108, 108]
          · rw [if_pos ht] at h
            simp only [Option.some.injEq, Prod.mk.injEq] at h
            rw [← h.1]
            simp [wfVal]
          · rw [if_neg ht] at h
            exact Option.noConfusion h
        · rw [if_neg h110] at h
          by_cases h116 : c = 116
          · rw [if_pos h116] at h
            by_cases ht : cs.take 3 = [114, 117, 101]
            · rw [if_pos ht] at h
              simp only [Option.some.injEq, Prod.mk.injEq] at h
              rw [← h.1]
              simp [wfVal]
            · rw [if_neg ht] at h
              exact Option.noConfusion h
          · rw [if_neg h116] at h
            by_cases h102 : c = 102
            · rw [if_pos h102] at h
              by_cases ht : cs.take 4 = [97, 108, 115, 101]
              · rw [if_pos ht] at h
                simp only [Option.some.injEq, Prod.mk.injEq] at h
                rw [← h.1]
                simp [wfVal]
              · rw [if_neg ht] at h
                exact Option.noConfusion h
            · rw [if_neg h102] at h
              by_cases h34 : c = 34
              · rw [if_pos h34] at h
                cases hp : parseStringBody (cs.length + 1) cs with
                | none =>
                  rw [hp] at h
                  simp only [Option.none_bind] at h
                  exact Option.noConfusion h
                | some p =>
                  obtain ⟨str0, r0⟩ := p
                  rw [hp] at h
                  simp only [Option.some_bind, Option.some.injEq,
                    Prod.mk.injEq] at h
                  rw [← h.1]
                  simp [wfVal]
              · rw [if_neg h34] at h
                by_cases h91 : c = 91
                · rw [if_pos h91] at h
                  by_cases hb : ((skipWs cs).head? == some 93) = true
                  · rw [if_pos hb] at h
                    simp only [Option.some.injEq, Prod.mk.injEq] at h
                    rw [← h.1]
                    simp [wfVal, wfItems]
                  · rw [if_neg hb] at h
                    cases hp : parseItems f (skipWs cs) with
                    | none =>
                      rw [hp] at h
                      simp only [Option.none_bind] at h
                      exact Option.noConfusion h
                    | some p =>
                      obtain ⟨ys, r0⟩ := p
                      rw [hp] at h
                      simp only [Option.some_bind, Option.some.injEq,
                        Prod.mk.injEq] at h
                      rw [← h.1]
                      have hys := ihi _ _ _ hp
                      simp only [wfVal]
                      exact hys
                · rw [if_neg h91] at h
                  by_cases h123 : c = 123
                  · rw [if_pos h123] at h
                    by_cases hb : ((skipWs cs).head? == some 125) = true
                    · rw [if_pos hb] at h
                      simp only [Option.some.injEq, Prod.mk.injEq] at h
                      rw [← h.1]
                      simp [wfVal, wfMembers, nodupKeys]
                    · rw [if_neg hb] at h
                      cases hp : parseMembers f (skipWs cs) with
                      | none =>
                        rw [hp] at h
                        simp only [Option.none_bind] at h
                        exact Option.noConfusion h
                      | some p =>
                        obtain ⟨mms, r0⟩ := p
                        rw [hp] at h
                        simp only [Option.some_bind, Option.some.injEq,
                          Prod.mk.injEq] at h
                        rw [← h.1]
                        exact wfVal_obj_dedup mms (ihm _ _ _ hp)
                  · rw [if_neg h123] at h
                    cases hp : parseInt (c :: cs) with
                    | none =>
                      rw [hp] at h
                      simp only [Option.none_bind] at h
                      exact Option.noConfusion h
                    | some p =>
                      obtain ⟨n, r0⟩ := p
                      rw [hp] at h
                      simp only [Option.some_bind, Option.some.injEq,
                        Prod.mk.injEq] at h
                      rw [← h.1]
                      simp [wfVal]
    · rw [parseItems] at h
      cases hp : parseVal f (skipWs input) with
      | none =>
        rw [hp] at h
        simp only [Option.none_bind] at h
        exact Option.noConfusion h
      | some p =>
        obtain ⟨v, r⟩ := p
        rw [hp] at h
        simp only [Option.some_bind] at h
        have hv := ihv _ _ _ hp
        by_cases h44 : ((skipWs r).head? == some 44) = true
        · rw [if_pos h44] at h
          cases hq : parseItems f (skipWs r).tail with
          | none =>
            rw [hq] at h
            simp only [Option.none_bind] at h
            exact Option.noConfusion h
          | some q =>
            obtain ⟨ys, r2⟩ := q
            rw [hq] at h
            simp only [Option.some_bind, Option.some.injEq, Prod.mk.injEq] at h
            rw [← h.1]
            simp only [wfItems, Bool.and_eq_true]
            exact ⟨hv, ihi _ _ _ hq⟩
        · rw [if_neg h44] at h
          by_cases h93 : ((skipWs r).head? == some 93) = true
          · rw [if_pos h93] at h
            simp only [Option.some.injEq, Prod.mk.injEq] at h
            rw [← h.1]
            simp [wfItems, hv]
          · rw [if_neg h93] at h
            exact Option.noConfusion h
    · rw [parseMembers] at h
      by_cases h34 : ((skipWs input).head? == some 34) = true
      · rw [if_pos h34] at h
        cases hpk : parseStringBody ((skipWs input).tail.length + 1)
            (skipWs input).tail with
        | none =>
          rw [hpk] at h
          simp only [Option.none_bind] at h
          exact Option.noConfusion h
        | some pk =>
          obtain ⟨kk, r1⟩ := pk
          rw [hpk] at h
          simp only [Option.some_bind] at h
          by_cases h58 : ((skipWs r1).head? == some 58) = true
          · rw [if_pos h58] at h
            cases hpv : parseVal f (skipWs (skipWs r1).tail) with
            | none =>
              rw [hpv] at h
              simp only [Option.none_bind] at h
              exact Option.noConfusion h
            | some pv =>
              obtain ⟨vv, r2⟩ := pv
              rw [hpv] at h
              simp only [Option.some_bind] at h
              have hv := ihv _ _ _ hpv
              by_cases h44 : ((skipWs r2).head? == some 44) = true
              · rw [if_pos h44] at h
                cases hpm : parseMembers f (skipWs r2).tail with
                | none =>
                  rw [hpm] at h
                  simp only [Option.none_bind] at h
                  exact Option.noConfusion h
                | some pm =>
                  obtain ⟨mms, r3⟩ := pm
                  rw [hpm] at h
                  simp only [Option.some_bind, Option.some.injEq,
                    Prod.mk.injEq] at h
                  rw [← h.1]
                  simp only [wfMembers, Bool.and_eq_true]
                  exact ⟨hv, ihm _ _ _ hpm⟩
              · rw [if_neg h44] at h
                by_cases h125 : ((skipWs r2).head? == some 125) = true
                · rw [if_pos h125] at h
                  simp only [Option.some.injEq, Prod.mk.injEq] at h
                  rw [← h.1]
                  simp [wfMembers, hv]
                · rw [if_neg h125] at h
                  exact Option.noConfusion h
          · rw [if_neg h58] at h
            exact Option.noConfusion h
      · rw [if_neg h34] at h
        exact Option.noConfusion h

/-- Every value `jsonLoads` returns is well-formed. -/
theorem wf_of_jsonLoads (input : List Nat) (v : JVal)
    (h : jsonLoads input = some v) : wfVal v = true := by
  unfold jsonLoads at h
  cases hp : parseVal (input.length + 1) (skipWs input) with
  | none =>
    rw [hp] at h
    exact Option.noConfusion h
  | some p =>
    obtain ⟨w, r⟩ := p
    rw [hp] at h
    replace h : (if (skipWs r).isEmpty then some w else none) = some v := h
    by_cases he : (skipWs r).isEmpty = true
    · rw [if_pos he] at h
      cases h
      exact (parse_wf _).1 _ _ _ hp
    · rw [if_neg he] at h
      exact Option.noConfusion h

/-- The model of `json.loads` parses the model of
`json.dumps(..., indent=2, ensure_ascii=False)` back to the same
value, for every well-formed JSON value of the fragment (well-formed:
duplicate-free object keys — exactly the values `jsonLoads` itself can
produce). -/
theorem jsonLoads_jsonDumps (v : JVal) (hwf : wfVal v = true) :
    jsonLoads (jsonDumps v) = some v := by
  unfold jsonLoads jsonDumps
  have hfuel : jsize v ≤ (dumpVal 0 v).length + 1 := jsize_le_dump 0 v
  have hskip : skipWs (dumpVal 0 v) = dumpVal 0 v := by
    have h := skipWs_dump 0 v []
    simpa using h
  rw [hskip]
  have h := parseVal_dump 0 ((dumpVal 0 v).length + 1) v [] hfuel headNotDigit_nil
    hwf
  rw [List.append_nil] at h
  rw [h]
  rfl

/-- Whatever JSON value a line parses to, pretty-printing it and
parsing again gives the same value back. -/
theorem jsonLoads_roundtrip (line : List Nat) (v : JVal)
    (h : jsonLoads line = some v) : jsonLoads (jsonDumps v) = some v :=
  jsonLoads_jsonDumps v (wf_of_jsonLoads line v h)

/-- Embedding of `_format_line_for_copy` (log_view.py lines 69-84): with
`raw=True` the line is returned unchanged; otherwise the line is handed
to `json.loads` — a parse failure raises `ValueError("Not valid JSON")`,
and on success the parsed value is re-serialised with
`json.dumps(data, indent=2, ensure_ascii=False)`.  The `json` module is
external library code, so its `loads`/`dumps` pair enters as parameters
over an arbitrary value type `α`, exactly as the function uses them (it
never inspects the parsed value itself); `jsonLoads`/`jsonDumps` above
model that pair concretely on JSON's integer fragment. -/
def format_line_for_copy {α : Type} (loads : List Nat → Option α)
    (dumps : α → List Nat) (line : List Nat) (raw : Bool) :
    Except String (List Nat) :=
  if raw then .ok line
  else
    match loads line with
    | none => .error "Not valid JSON"
    | some data => .ok (dumps data)

/-- C9: `_format_line_for_copy(line, raw=True)` returns the line
unchanged; with `raw=False` it raises `ValueError("Not valid JSON")`
exactly when `json.loads` fails on the line, and otherwise returns
`json.dumps(json.loads(line), indent=2, ensure_ascii=False)` — for any
behaviour of the external `json` library.  For the concrete model of
that library on JSON's float-free fragment (null, booleans, integers
per the JSON number grammar, strings with escapes and surrogate pairs,
arrays, objects with Python's last-wins duplicate-key handling), the
pretty-printed output parses back to the same JSON value as the
input. -/
theorem format_line_for_copy_spec {α : Type} (loads : List Nat → Option α)
    (dumps : α → List Nat) (line : List Nat) :
    format_line_for_copy loads dumps line true = .ok line ∧
    (loads line = none →
      format_line_for_copy loads dumps line false = .error "Not valid JSON") ∧
    (∀ a, loads line = some a →
      format_line_for_copy loads dumps line false = .ok (dumps a)) ∧
    (∀ v, jsonLoads line = some v → jsonLoads (jsonDumps v) = some v) := by
  refine ⟨rfl, ?_, ?_, ?_⟩
  · intro h
    simp [format_line_for_copy, h]
  · intro a h
    simp [format_line_for_copy, h]
  · intro v h
    exact jsonLoads_jsonDumps v (wf_of_jsonLoads line v h)

/-- Witness for C9 at concrete inputs, instantiating the `json` library
with its concrete model: the line `{"a":1}` is copied raw unchanged and
pretty-prints through a parse/print round trip, and the non-JSON line
"nope" is rejected. -/
theorem format_line_for_copy_spec_witness :
    format_line_for_copy jsonLoads jsonDumps [123, 34, 97, 34, 58, 49, 125] true
        = .ok [123, 34, 97, 34, 58, 49, 125] ∧
    format_line_for_copy jsonLoads jsonDumps [110, 111, 112, 101] false
        = .error "Not valid JSON" ∧
    format_line_for_copy jsonLoads jsonDumps [123, 34, 97, 34, 58, 49, 125] false
        = .ok (jsonDumps (.obj [([97], .num 1)])) ∧
    jsonLoads (jsonDumps (.obj [([97], .num 1)])) = some (.obj [([97], .num 1)]) :=
  ⟨(format_line_for_copy_spec jsonLoads jsonDumps [123, 34, 97, 34, 58, 49, 125]).1,
   (format_line_for_copy_spec jsonLoads jsonDumps [110, 111, 112, 101]).2.1 rfl,
   (format_line_for_copy_spec jsonLoads jsonDumps
       [123, 34, 97, 34, 58, 49, 125]).2.2.1 (.obj [([97], .num 1)]) rfl,
   (format_line_for_copy_spec jsonLoads jsonDumps
       [123, 34, 97, 34, 58, 49, 125]).2.2.2 (.obj [([97], .num 1)]) rfl⟩
